import Mathlib

/-
  Verification development for the hospo care-record pipeline.

  Strings are modelled as lists of characters (one entry per Unicode code
  point; every character handled by the pipeline is in the BMP, so this also
  matches the UTF-16 code-unit counts used by the JavaScript source).
  JavaScript Map objects are modelled as insertion-ordered association lists
  with set-semantics updates.  Fallible code returns Except.
-/

set_option maxRecDepth 8000

namespace Hospo

abbrev Str := List Char

/-- Whitespace characters recognised by the JavaScript regex class and by
String.prototype.trim (the subset that can actually occur in the pipeline). -/
def jsWhitespaceChars : List Char :=
  [' ', '\t', '\n', '\r', '\u000B', '\u000C', ' ', '　', '﻿']

def isJsWs (c : Char) : Bool := jsWhitespaceChars.contains c

/-- JavaScript String.prototype.trim. -/
def trimStr (s : Str) : Str :=
  ((s.dropWhile isJsWs).reverse.dropWhile isJsWs).reverse

def trimLeftStr (s : Str) : Str := s.dropWhile isJsWs

/-- Insertion-ordered map update with JavaScript Map.set semantics:
an existing key keeps its position and gets the new value, a new key is
appended at the end. -/
def mset : List (Str × Str) → Str → Str → List (Str × Str)
  | [], k, v => [(k, v)]
  | (k0, v0) :: rest, k, v =>
      if k0 = k then (k, v) :: rest else (k0, v0) :: mset rest k v

/-- JavaScript Map.get. -/
def mget (m : List (Str × Str)) (k : Str) : Option Str :=
  (m.find? (fun e => e.1 = k)).map (fun e => e.2)

/-- JavaScript Map.has. -/
def mhas (m : List (Str × Str)) (k : Str) : Bool :=
  (m.find? (fun e => e.1 = k)).isSome

/-- Decimal rendering of a natural number, as JavaScript string conversion
produces for the ordinal fallback names. -/
def natToStr (n : Nat) : Str := (Nat.repr n).toList

/- ===== Content-length cap (text-splitter.ts line 4, 82-100;
         excel-reader.ts line 5, 34-49) ===== -/

def MAX_CHARS_PER_SECTION : Nat := 10000

/-- The visible truncation marker appended by the cap step. -/
def TRUNC_MARKER : Str := "...[以下省略]".toList

/-- The content-cap truncation step, as written inline at each site:
if (content.length > MAX_CHARS_PER_SECTION)
  content = content.substring(0, MAX_CHARS_PER_SECTION) + marker. -/
def truncateContent (content : Str) : Str :=
  if MAX_CHARS_PER_SECTION < content.length then
    content.take MAX_CHARS_PER_SECTION ++ TRUNC_MARKER
  else content

/- ===== Summarization Orchestrator (summarizer.ts, first variant) ===== -/

structure ChatMsg where
  role : Str
  content : Str
deriving DecidableEq

/-- A chat completion request.  The temperature is recorded in tenths so the
request stays in executable, decidable territory (0.2 becomes 2). -/
structure ChatReq where
  model : Str
  temperatureTenths : Nat
  messages : List ChatMsg
deriving DecidableEq

/-- Outcome of one remote completion call: either the optional message
content of the first choice, or a thrown error carrying its message. -/
inductive ApiOutcome where
  | ok (content : Option Str)
  | fail (message : Str)
deriving DecidableEq

/-- The remote model, as an arbitrary function from request to outcome. -/
abbrev Oracle := ChatReq → ApiOutcome

def SUMMARY_SYSTEM : Str :=
  "あなたは介護・福祉の月次経過記録の要約担当です。\n記録を正確・簡潔にまとめ、現場の申し送りに使える品質で出力してください。".toList

def SUMMARY_INSTRUCTIONS : Str :=
  "要約要件:\n・200〜300文字、敬体（です・ます調）。箇条書き不可、1段落。\n・原文にない推測や評価は禁止。日付や数値は正確に転記。\n・優先順位: 体調/睡眠/感情 → 排泄/入浴/転倒等 → 皮膚所見/脱水等のリスクと対応 → 連絡事項（家族・ショートステイ等）→ 次回への配慮事項。\n・該当がない項目は無理に入れない。\n出力は本文のみ。".toList

/-- name.replace(/さん|様|氏/, ''): remove the leftmost occurrence of one of
the three honorifics (non-global regex, so only the first occurrence). -/
def stripHonorificOnce : Str → Str
  | [] => []
  | c :: rest =>
      if c = 'さ' ∧ rest.head? = some 'ん' then rest.tail
      else if c = '様' then rest
      else if c = '氏' then rest
      else c :: stripHonorificOnce rest

/-- Boolean prefix test. -/
def isPref : Str → Str → Bool
  | [], _ => true
  | _ :: _, [] => false
  | p :: ps, c :: cs => if p = c then isPref ps cs else false

/-- Decidable substring occurrence: pat occurs contiguously inside s. -/
def containsSub (pat : Str) : Str → Bool
  | [] => isPref pat []
  | c :: rest => isPref pat (c :: rest) || containsSub pat rest

/-- Fuel-driven left-to-right replace-all of a non-empty literal pattern. -/
def replaceAllFuel (pat rep : Str) : Nat → Str → Str
  | _, [] => []
  | 0, s => s
  | fuel + 1, c :: rest =>
      if isPref pat (c :: rest) then
        rep ++ replaceAllFuel pat rep fuel ((c :: rest).drop pat.length)
      else
        c :: replaceAllFuel pat rep fuel rest

/-- content.replace(new RegExp(pat, 'g'), rep) for a pattern string without
regex metacharacters.  An empty pattern matches at every position, which in
JavaScript inserts the replacement before every character and at the end. -/
def jsReplaceAll (pat rep s : Str) : Str :=
  if pat = [] then rep ++ s.flatMap (fun c => c :: rep)
  else replaceAllFuel pat rep s.length s

def GENERIC_PLACEHOLDER : Str := "対象者".toList

/-- The metacharacters of a JavaScript regex pattern string. -/
def isRegexMeta (c : Char) : Bool :=
  c = '\\' || c = '^' || c = '$' || c = '.' || c = '|' || c = '?' ||
  c = '*' || c = '+' || c = '(' || c = ')' || c = '[' || c = ']' ||
  c = '\x7b' || c = '\x7d'

/-- True when the string contains no regex metacharacter, so that
new RegExp(s, g) compiles to a regex matching exactly the literal
occurrences of s. -/
def isRegexSafe (s : Str) : Bool := s.all (fun c => !(isRegexMeta c))

/-- The privacy mask applied to the content before it is sent out:
content.replace(new RegExp(nameBase, g), 対象者).  This literal replace-all
model coincides with the dynamically built regex exactly when the stripped
name satisfies isRegexSafe; a name containing a metacharacter makes the
real regex match differently, never match, or fail to compile, so theorems
about the mask carry that hypothesis. -/
def maskContent (name content : Str) : Str :=
  jsReplaceAll (stripHonorificOnce name) GENERIC_PLACEHOLDER content

def mkUserPrompt (name masked : Str) : Str :=
  "利用者: ".toList ++ name ++
    "\n以下は当月の経過記録です。これを要件に従い要約してください。\n---\n".toList ++
    masked ++ "\n---\n".toList ++ SUMMARY_INSTRUCTIONS

def mkSummaryReq (model name content : Str) : ChatReq :=
  { model := model, temperatureTenths := 2,
    messages := [⟨"system".toList, SUMMARY_SYSTEM⟩,
                 ⟨"user".toList, mkUserPrompt name (maskContent name content)⟩] }

def ADJUST_SYSTEM : Str := "文章整形アシスタント".toList

def mkAdjustPrompt (summary : Str) : Str :=
  "次の文章を200〜300文字に調整し、敬体を維持して意味を保ってください。本文のみ:\n---\n".toList ++
    summary ++ "\n---".toList

def mkAdjustReq (model summary : Str) : ChatReq :=
  { model := model, temperatureTenths := 0,
    messages := [⟨"system".toList, ADJUST_SYSTEM⟩,
                 ⟨"user".toList, mkAdjustPrompt summary⟩] }

/-- summary.replace(/\n/g, '').length, the character count with newlines
excluded. -/
def charCountNoNewlines (s : Str) : Nat := (s.filter (fun c => c ≠ '\n')).length

def GEN_FAIL_MSG : Str := "要約生成に失敗しました".toList

def mkFailMarker (e : Str) : Str := "要約失敗: ".toList ++ e

/-- choices[0]?.message?.content?.trim() || fallback. -/
def orElseNonempty (o : Option Str) (fallback : Str) : Str :=
  match o with
  | none => fallback
  | some s => if trimStr s = [] then fallback else trimStr s

/-- summarizeOne, returning the produced summary together with the ordered
log of requests issued to the remote model.  The surrounding try/catch turns
any thrown error into the failure-marker string. -/
def summarizeOne (name content : Str) (oracle : Oracle) (model : Str) :
    Str × List ChatReq :=
  match oracle (mkSummaryReq model name content) with
  | ApiOutcome.fail e => (mkFailMarker e, [mkSummaryReq model name content])
  | ApiOutcome.ok o =>
      if charCountNoNewlines (orElseNonempty o GEN_FAIL_MSG) < 200
          ∨ 300 < charCountNoNewlines (orElseNonempty o GEN_FAIL_MSG) then
        match oracle (mkAdjustReq model (orElseNonempty o GEN_FAIL_MSG)) with
        | ApiOutcome.fail e =>
            (mkFailMarker e,
             [mkSummaryReq model name content,
              mkAdjustReq model (orElseNonempty o GEN_FAIL_MSG)])
        | ApiOutcome.ok o2 =>
            (orElseNonempty o2 (orElseNonempty o GEN_FAIL_MSG),
             [mkSummaryReq model name content,
              mkAdjustReq model (orElseNonempty o GEN_FAIL_MSG)])
      else (orElseNonempty o GEN_FAIL_MSG, [mkSummaryReq model name content])

/-- Batch slicing: for (let i = 0; i < entries.length; i += k) slice(i, i+k),
driven by fuel so the definition is executable. -/
def chunksFuel (k : Nat) : Nat → List α → List (List α)
  | _, [] => []
  | 0, l => [l]
  | fuel + 1, l => l.take k :: chunksFuel k fuel (l.drop k)

/-- processSummaries: batches of size maxConcurrency, each batch fully
resolved and its results written into the output map before the next one. -/
def processSummaries (sections : List (Str × Str)) (oracle : Oracle)
    (model : Str) (maxConcurrency : Nat) : List (Str × Str) :=
  let batches := chunksFuel maxConcurrency sections.length sections
  batches.foldl
    (fun summaries batch =>
      (batch.map (fun e => (e.1, (summarizeOne e.1 e.2 oracle model).1))).foldl
        (fun m r => mset m r.1 r.2) summaries)
    []

/- ===== Segmentation Engine (text-splitter.ts) =====

The six NAME_HEADER_PATTERNS are anchored multiline regexes, so matchAll
scans line by line.  Each pattern is embedded as a per-line matcher that
returns the captured name.  The lazy captures are realised by scanning for
the earliest position where an honorific completes the capture and the rest
of the line satisfies the trailing part of the pattern; whitespace at group
boundaries is normalised by the final trim exactly as in the source. -/

/-- suffix test. -/
def endsWith (suf s : Str) : Bool := isPref suf.reverse s.reverse

/-- (?:さん|様|氏) at the head of s, returning the matched length. -/
def honorificAt (s : Str) : Option Nat :=
  if isPref "さん".toList s then some 2
  else if isPref "様".toList s then some 1
  else if isPref "氏".toList s then some 1
  else none

/-- Name ends with さん, 様 or 氏 (the splitter honorific set). -/
def endsWithHonorific (s : Str) : Bool :=
  endsWith "さん".toList s || endsWith "様".toList s || endsWith "氏".toList s

def allWs (s : Str) : Bool := s.all isJsWs

/-- Core lazy scan shared by the name captures: grow the base one character
at a time (rejecting stop characters), and accept at the first position
where an honorific follows and the remainder satisfies the trailing test. -/
def scanNameAux (stop : Char → Bool) (trailOk : Str → Bool) :
    Str → Str → Option Str
  | _, [] => none
  | pre, c :: rest =>
      match honorificAt (c :: rest) with
      | some n =>
          if trailOk ((c :: rest).drop n) then some (pre.reverse ++ (c :: rest).take n)
          else if stop c then none else scanNameAux stop trailOk (c :: pre) rest
      | none => if stop c then none else scanNameAux stop trailOk (c :: pre) rest

/-- Lazy (.+?(?:さん|様|氏)) with a given trailing test, starting at pos
(the base must take at least one character). -/
def scanFromStart (trail : Str → Bool) (pos : Str) : Option Str :=
  match pos with
  | [] => none
  | c :: rest => scanNameAux (fun _ => false) trail [c] rest

/-- Pattern 1: name line with honorific, no '#', optionally trailed by
whitespace. -/
def matchPattern1 (line : Str) : Option Str :=
  scanNameAux (fun c => c = '#') allWs [] line

/-- Pattern 2: markdown header (1 to 6 hashes) followed by a name. -/
def matchPattern2 (line : Str) : Option Str :=
  let l1 := line.dropWhile isJsWs
  let hashes := l1.takeWhile (fun c => c = '#')
  if 1 ≤ hashes.length ∧ hashes.length ≤ 6 then
    let l2 := l1.drop hashes.length
    let ws2 := l2.takeWhile isJsWs
    if 1 ≤ ws2.length then scanFromStart allWs (l2.drop ws2.length)
    else none
  else none

def LABELS3 : List Str :=
  ["氏名".toList, "利用者".toList, "対象者".toList, "名前".toList, "お名前".toList]

/-- Pattern 3: labeled name line (氏名：…, 利用者：…, and so on). -/
def matchPattern3 (line : Str) : Option Str :=
  match LABELS3.find? (fun lb => isPref lb line) with
  | none => none
  | some lb =>
      match (line.drop lb.length).dropWhile isJsWs with
      | [] => none
      | c :: rest =>
          if c = ':' ∨ c = '：' then scanFromStart allWs (rest.dropWhile isJsWs)
          else none

def isDeco4 (c : Char) : Bool := c = '-' ∨ c = '=' ∨ c = '━' ∨ c = '─'

def p4Trail (s : Str) : Bool :=
  let s1 := s.dropWhile isJsWs
  let d := s1.takeWhile isDeco4
  2 ≤ d.length ∧ allWs (s1.drop d.length)

/-- Pattern 4: decorated name line between runs of at least two rule
characters. -/
def matchPattern4 (line : Str) : Option Str :=
  let d1 := line.takeWhile isDeco4
  if 2 ≤ d1.length then scanFromStart p4Trail ((line.drop d1.length).dropWhile isJsWs)
  else none

def p5Trail (s : Str) : Bool :=
  match s with
  | c :: rest => (c = '】' ∨ c = ']') && allWs rest
  | [] => false

/-- Pattern 5: bracketed name line. -/
def matchPattern5 (line : Str) : Option Str :=
  match line with
  | [] => none
  | c :: rest =>
      if c = '【' ∨ c = '[' then scanFromStart p5Trail rest
      else none

def isDigit (c : Char) : Bool := '0' ≤ c ∧ c ≤ '9'

/-- Greedy \d{1,2}日, returning the consumed length. -/
def parseDayPart : Str → Option Nat
  | a :: b :: rest =>
      if isDigit a ∧ isDigit b ∧ rest.head? = some '日' then some 3
      else if isDigit a ∧ b = '日' then some 2 else none
  | _ => none

/-- Greedy \d{1,2}月, returning the consumed length. -/
def parseMonthPart : Str → Option Nat
  | a :: b :: rest =>
      if isDigit a ∧ isDigit b ∧ rest.head? = some '月' then some 3
      else if isDigit a ∧ b = '月' then some 2 else none
  | _ => none

/-- Optional date prefix \d{1,2}月\d{1,2}日, returning the consumed
length. -/
def parseDatePrefix (s : Str) : Option Nat :=
  match parseMonthPart s with
  | some m =>
      match parseDayPart (s.drop m) with
      | some d => some (m + d)
      | none => none
  | none => none

/-- Pattern 6: optional date prefix, then a name; if no name follows the
date, the optional group backtracks to absent. -/
def matchPattern6 (line : Str) : Option Str :=
  match parseDatePrefix line with
  | some n =>
      match scanFromStart allWs ((line.drop n).dropWhile isJsWs) with
      | some nm => some nm
      | none => scanFromStart allWs (line.dropWhile isJsWs)
  | none => scanFromStart allWs (line.dropWhile isJsWs)

def NAME_PATTERNS : List (Str → Option Str) :=
  [matchPattern1, matchPattern2, matchPattern3,
   matchPattern4, matchPattern5, matchPattern6]

/-- matchAll over the text for an anchored pattern: one candidate per
matching line, tagged with the line index. -/
def matchesFor (matcher : Str → Option Str) (lines : List Str) :
    List (Nat × Str) :=
  lines.enum.filterMap (fun p => (matcher p.2).map (fun nm => (p.1, nm)))

/-- Filter out false positives: 1 < name.length < 50. -/
def validMatchesFor (matcher : Str → Option Str) (lines : List Str) :
    List (Nat × Str) :=
  (matchesFor matcher lines).filter
    (fun p => decide (1 < p.2.length) && decide (p.2.length < 50))

/-- Pick the pattern with the strictly largest validated match count (the
first such pattern wins ties, matching the source loop). -/
def bestMatchesOf (lines : List Str) : List (Nat × Str) :=
  (NAME_PATTERNS.map (fun m => validMatchesFor m lines)).foldl
    (fun best cur => if best.length < cur.length then cur else best) []

def CLEAN_WORDS : List Str :=
  ["日付".toList, "内容".toList, "記録".toList, "備考".toList,
   "観察".toList, "状態".toList]

def isSubHeaderLine (l : Str) : Bool :=
  let l1 := l.dropWhile isJsWs
  let hashes := l1.takeWhile (fun c => c = '#')
  if 1 ≤ hashes.length ∧ hashes.length ≤ 6 then
    let l2 := (l1.drop hashes.length).dropWhile isJsWs
    CLEAN_WORDS.any (fun w => isPref w l2 && allWs (l2.drop w.length))
  else false

def isHorizLine (l : Str) : Bool :=
  let run := l.takeWhile
    (fun c => c = '-' ∨ c = '=' ∨ c = '━' ∨ c = '─' ∨ c = '＊' ∨ c = '*')
  3 ≤ run.length ∧ allWs (l.drop run.length)

def isPageNumLine (l : Str) : Bool :=
  let l1 := l.dropWhile isJsWs
  let wordLen :=
    if isPref "ページ".toList l1 then some 3
    else if isPref "Page".toList l1 then some 4
    else if isPref "頁".toList l1 then some 1
    else (none : Option Nat)
  match wordLen with
  | none => false
  | some n =>
      let l2 := (l1.drop n).dropWhile isJsWs
      let digits := l2.takeWhile isDigit
      1 ≤ digits.length ∧ allWs (l2.drop digits.length)

/-- Collapse every run of three or more newlines to exactly two. -/
def collapseNlFuel : Nat → Str → Str
  | 0, s => s
  | f + 1, s =>
      match s with
      | '\n' :: '\n' :: '\n' :: rest => collapseNlFuel f ('\n' :: '\n' :: rest)
      | c :: rest => c :: collapseNlFuel f rest
      | [] => []

/-- cleanContent: blank out sub-header, rule and page-number lines, collapse
blank-line runs, and trim. -/
def cleanContent (content : Str) : Str :=
  let kept := (content.splitOn '\n').map (fun l =>
    if isSubHeaderLine l then []
    else if isHorizLine l then []
    else if isPageNumLine l then [] else l)
  let joined := List.intercalate ['\n'] kept
  trimStr (collapseNlFuel joined.length joined)

/-- The section-building loop of splitByPerson over the selected matches. -/
def buildSections (lines : List Str) : List (Nat × Str) → List (Str × Str) →
    List (Str × Str)
  | [], acc => acc
  | m :: rest, acc =>
      let endIdx := match rest with
        | [] => lines.length
        | m2 :: _ => m2.1
      let name := trimStr m.2
      if name.length < 2 then buildSections lines rest acc
      else
        let content1 := cleanContent (trimStr (List.intercalate ['\n']
          ((lines.drop (m.1 + 1)).take (endIdx - (m.1 + 1)))))
        if content1.length < 10 then buildSections lines rest acc
        else
          let content2 := truncateContent content1
          let acc2 := match mget acc name with
            | some existing =>
                mset acc name (truncateContent (existing ++ '\n' :: '\n' :: content2))
            | none => mset acc name content2
          buildSections lines rest acc2

/-- text.split(/\n{4,}|\f/): cur is the reversed chunk being built, pending
counts newlines not yet classified as a delimiter. -/
def splitChunksAux : Str → Nat → Str → List Str
  | cur, pending, [] =>
      if 4 ≤ pending then [cur.reverse, []]
      else [(List.replicate pending '\n' ++ cur).reverse]
  | cur, pending, c :: rest =>
      if c = '\n' then splitChunksAux cur (pending + 1) rest
      else if c = '\x0C' then
        if 4 ≤ pending then cur.reverse :: [] :: splitChunksAux [] 0 rest
        else (List.replicate pending '\n' ++ cur).reverse :: splitChunksAux [] 0 rest
      else
        if 4 ≤ pending then cur.reverse :: splitChunksAux [c] 0 rest
        else splitChunksAux (c :: (List.replicate pending '\n' ++ cur)) 0 rest

/-- Leftmost lazy (.+?(?:さん|様|氏)) inside one line. -/
def fallbackNameInLine (l : Str) : Option Str :=
  scanFromStart (fun _ => true) l

/-- The chunk loop of fallbackSplit. -/
def buildFallback : List Str → Nat → List (Str × Str) → List (Str × Str)
  | [], _, acc => acc
  | chunk :: rest, idx, acc =>
      let trimmed := trimStr chunk
      if 50 < trimmed.length then
        let name := match ((trimmed.splitOn '\n').take 5).findSome? fallbackNameInLine with
          | some nm => nm
          | none => "未分類".toList ++ natToStr (idx + 1) ++ "さん".toList
        buildFallback rest (idx + 1) (mset acc name (truncateContent trimmed))
      else buildFallback rest (idx + 1) acc

/-- fallbackSplit: split on blank-line runs or form feeds; if that yields
nothing usable, the whole text becomes a single record under 未分類さん. -/
def fallbackSplit (text : Str) : List (Str × Str) :=
  let chunks := splitChunksAux [] 0 text
  let sections :=
    if 1 < chunks.length ∧ chunks.length ≤ 100 then buildFallback chunks 0 []
    else []
  if sections.length = 0 then [("未分類さん".toList, truncateContent text)]
  else sections

/-- splitByPerson: pick the best pattern, build sections when the validated
match count is plausible (2 to 100), otherwise fall back. -/
def splitByPerson (text : Str) : List (Str × Str) :=
  let lines := text.splitOn '\n'
  let best := bestMatchesOf lines
  let sections :=
    if 2 ≤ best.length ∧ best.length ≤ 100 then buildSections lines best []
    else []
  if sections.length = 0 then fallbackSplit text else sections

/- ===== Raw Text Extractor, spreadsheet path (excel-reader.ts) =====

A worksheet is its label plus a grid of cell strings (ExcelJS cell values
already rendered to strings; sanitizeCellValue on a string value is
String(value).trim()).  eachCell iterates cells with one-based column
numbers. -/

structure Worksheet where
  name : Str
  rows : List (List Str)

def getCell (row : List Str) (col : Nat) : Str := row.getD (col - 1) []

def sanitizeCellValue (v : Str) : Str := trimStr v

def toLowerChar (c : Char) : Char :=
  if 'A' ≤ c ∧ c ≤ 'Z' then Char.ofNat (c.toNat + 32) else c

def toLowerStr (s : Str) : Str := s.map toLowerChar

def isLatinLetter (c : Char) : Bool := ('A' ≤ c ∧ c ≤ 'Z') ∨ ('a' ≤ c ∧ c ≤ 'z')

def isUpperLatin (c : Char) : Bool := 'A' ≤ c ∧ c ≤ 'Z'

def HONORIFICS6 : List Str :=
  ["さん".toList, "様".toList, "氏".toList, "殿".toList, "君".toList, "ちゃん".toList]

/-- /さん$|様$|氏$|殿$|君$|ちゃん$/ -/
def endsWithHonorific6 (s : Str) : Bool := HONORIFICS6.any (fun h => endsWith h s)

def digitsToEnd (s : Str) : Bool := decide (s ≠ []) && s.all isDigit

/-- ^[A-Z]+[0-9]+$ with the i flag. -/
def latinThenDigits (name : Str) : Bool :=
  let letters := name.takeWhile isLatinLetter
  decide (1 ≤ letters.length) && digitsToEnd (name.drop letters.length)

/-- /^[0-9]+$|^第|^Sheet|^sheet|^ページ|^Page|^[A-Z]+[0-9]+$/i -/
def invalidNamePattern (name : Str) : Bool :=
  (decide (name ≠ []) && name.all isDigit)
  || isPref "第".toList name
  || isPref "sheet".toList (toLowerStr name)
  || isPref "ページ".toList name
  || isPref "page".toList (toLowerStr name)
  || latinThenDigits name

/-- name.replace(/さ$|さん$|様$|氏$|殿$|君$|ちゃん$/g, ''): removes the one
end-anchored alternative whose match starts leftmost. -/
def stripTrailingHonorificPartial (name : Str) : Str :=
  if endsWith "ちゃん".toList name then name.take (name.length - 3)
  else if endsWith "さん".toList name then name.take (name.length - 2)
  else if endsWith "さ".toList name then name.take (name.length - 1)
  else if endsWith "様".toList name then name.take (name.length - 1)
  else if endsWith "氏".toList name then name.take (name.length - 1)
  else if endsWith "殿".toList name then name.take (name.length - 1)
  else if endsWith "君".toList name then name.take (name.length - 1)
  else name

/-- ensureHonorific from excel-reader.ts. -/
def ensureHonorific (name0 : Str) : Str :=
  if name0.length < 1 then []
  else
    let name := trimStr name0
    if invalidNamePattern name then []
    else if endsWithHonorific6 name then name
    else
      let cleanName := trimStr (stripTrailingHonorificPartial name)
      if cleanName.length < 1 ∨ 30 < cleanName.length then
        if 1 ≤ name.length ∧ name.length ≤ 30 then name ++ "様".toList else []
      else cleanName ++ "様".toList

/- Strategy 2: structured columns. -/

def NAME_HEADER_WORDS : List Str :=
  ["氏名".toList, "名前".toList, "利用者名".toList, "対象者".toList]

def isNameHeaderCell (v : Str) : Bool :=
  let lower := toLowerStr v
  NAME_HEADER_WORDS.any (fun w => containsSub w lower)
  || decide (lower = "name".toList) || decide (lower = "person".toList)

def CONTENT_HEADER_WORDS : List Str :=
  ["記録".toList, "内容".toList, "経過".toList, "状況".toList,
   "様子".toList, "備考".toList, "コメント".toList, "所見".toList]

def isContentHeaderCell (v : Str) : Bool :=
  CONTENT_HEADER_WORDS.any (fun w => containsSub w (toLowerStr v))

def scanHeaderRow (row : List Str) (nc : Option Nat) (cc : List Nat) :
    Option Nat × List Nat :=
  row.enum.foldl (fun st p =>
    let colNumber := p.1 + 1
    let nc2 := if isNameHeaderCell p.2 then some colNumber else st.1
    let cc2 := if isContentHeaderCell p.2 then
        (if colNumber ∈ st.2 then st.2 else st.2 ++ [colNumber]) else st.2
    (nc2, cc2)) (nc, cc)

def scanHeadersAux : List (List Str) → Option Nat → List Nat →
    Option Nat × List Nat
  | [], nc, cc => (nc, cc)
  | row :: rest, nc, cc =>
      let st := scanHeaderRow row nc cc
      if st.1.isSome ∧ st.2 ≠ [] then st else scanHeadersAux rest st.1 st.2

/-- records.find by name: append with newline to the existing record, else
push. -/
def recAppend : List (Str × Str) → Str → Str → List (Str × Str)
  | [], n, c => [(n, c)]
  | (n0, c0) :: rest, n, c =>
      if n0 = n then (n0, c0 ++ '\n' :: c) :: rest
      else (n0, c0) :: recAppend rest n c

def structuredRow (nameCol : Nat) (contentCols : List Nat)
    (records : List (Str × Str)) (row : List Str) : List (Str × Str) :=
  let name := sanitizeCellValue (getCell row nameCol)
  if name = [] then records
  else
    let contentParts := contentCols.filterMap (fun col =>
      let v := sanitizeCellValue (getCell row col)
      if v.length ≠ 0 then some v else none)
    let content := trimStr (List.intercalate [' '] contentParts)
    let nameWithHonorific := ensureHonorific name
    if nameWithHonorific ≠ [] ∧ content ≠ [] ∧ 10 < content.length then
      recAppend records nameWithHonorific content
    else records

def extractStructuredRecords (ws : Worksheet) : List (Str × Str) :=
  let st := scanHeadersAux (ws.rows.take 5) none []
  match st.1 with
  | none => []
  | some nameCol =>
      let cc :=
        if st.2 = [] then
          match ws.rows.head? with
          | some firstRow => List.range' (nameCol + 1) (firstRow.length - nameCol)
          | none => []
        else st.2
      if cc = [] then []
      else (ws.rows.drop 1).foldl (structuredRow nameCol cc) []

/- Strategy 3: inline name markers. -/

def inNC (c : Char) : Bool :=
  isLatinLetter c ∨ ('ぁ' ≤ c ∧ c ≤ 'ん') ∨ ('ァ' ≤ c ∧ c ≤ 'ヶ')
    ∨ c = 'ー' ∨ ('一' ≤ c ∧ c ≤ '龥')

def isTermChar (c : Char) : Bool :=
  isJsWs c ∨ c = '：' ∨ c = ':' ∨ c = '】' ∨ c = ']' ∨ c = '、' ∨ c = '。'

/-- /^([A-Za-zぁ-んァ-ヶー一-龥]{1,}(?:様|さん|氏|殿|君|ちゃん))[\s　：:】\]、。]/
The honorific characters lie inside the name class, so the capture is the
maximal class run, which must end in an honorific (largest base first) and
be followed by one terminator character. -/
def rowHonorificName (rowText : Str) : Option Str :=
  let run := rowText.takeWhile inNC
  match (rowText.drop run.length).head? with
  | some t =>
      if isTermChar t then
        if 2 ≤ run.length ∧ (endsWith "様".toList run ∨ endsWith "氏".toList run
            ∨ endsWith "殿".toList run ∨ endsWith "君".toList run) then some run
        else if 3 ≤ run.length ∧ endsWith "さん".toList run then some run
        else if 4 ≤ run.length ∧ endsWith "ちゃん".toList run then some run
        else none
      else none
  | none => none

def LABELS_ROW : List Str :=
  ["利用者".toList, "対象者".toList, "氏名".toList, "名前".toList]

/-- /^(?:利用者|対象者|氏名|名前)[\s　]*[:：]\s*([…]{1,}(?:様|さん|氏)?)/
returning the raw captured run and the full match length. -/
def labeledNameMatch (rowText : Str) : Option (Str × Nat) :=
  match LABELS_ROW.find? (fun lb => isPref lb rowText) with
  | none => none
  | some lb =>
      let afterLabel := rowText.drop lb.length
      let ws1 := afterLabel.takeWhile isJsWs
      match (afterLabel.drop ws1.length).head? with
      | some c =>
          if c = ':' ∨ c = '：' then
            let afterColon := afterLabel.drop (ws1.length + 1)
            let ws2 := afterColon.takeWhile isJsWs
            let run := (afterColon.drop ws2.length).takeWhile inNC
            if 1 ≤ run.length then
              some (run, lb.length + ws1.length + 1 + ws2.length + run.length)
            else none
          else none
      | none => none

/-- /^[【\[]([…]{1,}(?:様|さん|氏)?)[】\]]/ -/
def bracketNameMatch (rowText : Str) : Option (Str × Nat) :=
  match rowText.head? with
  | some c =>
      if c = '【' ∨ c = '[' then
        let run := (rowText.drop 1).takeWhile inNC
        if 1 ≤ run.length then
          match (rowText.drop (1 + run.length)).head? with
          | some c2 =>
              if c2 = '】' ∨ c2 = ']' then some (run, 1 + run.length + 1) else none
          | none => none
        else none
      else none
  | none => none

/-- Row text: non-empty sanitized cells, space-joined, trimmed. -/
def mkRowText (row : List Str) : Str :=
  trimStr (List.intercalate [' '] (row.filterMap (fun cell =>
    let v := sanitizeCellValue cell
    if v ≠ [] then some v else none)))

def bracketDetect (rowText : Str) : Option (Str × Str) :=
  match bracketNameMatch rowText with
  | some r =>
      let f2 := ensureHonorific r.1
      if f2 ≠ [] then some (f2, trimStr (rowText.drop r.2)) else none
  | none => none

/-- The three row patterns in order; a pattern whose ensureHonorific comes
back empty leaves foundName falsy, so the next pattern is consulted. -/
def rowNameDetect (rowText : Str) : Option (Str × Str) :=
  match rowHonorificName rowText with
  | some nm => some (nm, trimStr (rowText.drop (nm.length + 1)))
  | none =>
      match labeledNameMatch rowText with
      | some r =>
          let f := ensureHonorific r.1
          if f ≠ [] then some (f, trimStr (rowText.drop r.2))
          else bracketDetect rowText
      | none => bracketDetect rowText

/-- Close the previous individual: push the accumulated lines when they join
to more than 10 characters. -/
def flushPerson (cur : Option Str) (curContent : List Str)
    (recs : List (Str × Str)) : List (Str × Str) :=
  match cur with
  | some p =>
      if curContent ≠ [] then
        let content := trimStr (List.intercalate ['\n'] curContent)
        if 10 < content.length then recs ++ [(p, content)] else recs
      else recs
  | none => recs

def patternLoop : List (List Str) → Option Str → List Str →
    List (Str × Str) → List (Str × Str)
  | [], cur, curContent, recs => flushPerson cur curContent recs
  | row :: rest, cur, curContent, recs =>
      let rowText := mkRowText row
      if rowText = [] then patternLoop rest cur curContent recs
      else
        match rowNameDetect rowText with
        | some nd =>
            patternLoop rest (some nd.1) (if nd.2 ≠ [] then [nd.2] else [])
              (flushPerson cur curContent recs)
        | none =>
            match cur with
            | some _ => patternLoop rest cur (curContent ++ [rowText]) recs
            | none => patternLoop rest cur curContent recs

def extractByNamePatterns (ws : Worksheet) : List (Str × Str) :=
  patternLoop ws.rows none [] []

/- Strategy 1: whole sheet is one individual. -/

/-- /^Sheet[0-9]+$|^sheet[0-9]+$|^Page[0-9]+$|^ページ[0-9]+$|^データ$|^一覧$|^目次$|^INDEX$/i -/
def isGenericSheetName (name : Str) : Bool :=
  let lower := toLowerStr name
  (isPref "sheet".toList lower && digitsToEnd (name.drop 5))
  || (isPref "page".toList lower && digitsToEnd (name.drop 4))
  || (isPref "ページ".toList name && digitsToEnd (name.drop 3))
  || decide (lower = "データ".toList) || decide (lower = "一覧".toList)
  || decide (lower = "目次".toList) || decide (lower = "index".toList)

def inNC2 (c : Char) : Bool :=
  isLatinLetter c ∨ ('あ' ≤ c ∧ c ≤ 'ん') ∨ ('一' ≤ c ∧ c ≤ '龥')

def SUFFIX_CLASS : List Char := ['様', 'さ', 'ん', '氏', '殿', '君', 'ち', 'ゃ']

def inJC (c : Char) : Bool :=
  ('ぁ' ≤ c ∧ c ≤ 'ん') ∨ ('ァ' ≤ c ∧ c ≤ 'ヶ') ∨ c = 'ー' ∨ ('一' ≤ c ∧ c ≤ '龥')

/-- /^[ぁ-んァ-ヶー一-龥]+[\s　]+[ぁ-んァ-ヶー一-龥]+$/ -/
def spacedJapaneseName (name : Str) : Bool :=
  let t1 := name.takeWhile inJC
  let rest1 := name.drop t1.length
  let ws := rest1.takeWhile isJsWs
  let t2 := rest1.drop ws.length
  decide (1 ≤ t1.length) && decide (1 ≤ ws.length)
    && decide (t2 ≠ []) && t2.all inJC

def isLikelyPersonName (name : Str) : Bool :=
  if name.length = 0 then false
  else if isGenericSheetName name then false
  else if 2 ≤ name.length && (name.take (name.length - 1)).all inNC2
      && (match name.getLast? with
          | some c => SUFFIX_CLASS.contains c
          | none => false) then true
  else if 1 ≤ name.length && name.length ≤ 10 && name.all inJC then true
  else if spacedJapaneseName name then true
  else if (match name with | [c] => isUpperLatin c | _ => false) then true
  else false

def CELL_LABELS : List Str := ["氏名".toList, "名前".toList, "利用者".toList]

/-- /(?:氏名|名前|利用者)[：:]\s*(.+)/, unanchored, leftmost occurrence;
returns the trimmed captured rest of the line (none when it trims away). -/
def cellLabelAux : Str → Option Str
  | [] => none
  | c :: rest =>
      match CELL_LABELS.find? (fun lb => isPref lb (c :: rest)) with
      | some lb =>
          let after := (c :: rest).drop lb.length
          match after.head? with
          | some cc =>
              if cc = '：' ∨ cc = ':' then
                let lineRest := ((after.drop 1).dropWhile isJsWs).takeWhile
                  (fun x => x ≠ '\n')
                if trimStr lineRest ≠ [] then some (trimStr lineRest)
                else cellLabelAux rest
              else cellLabelAux rest
          | none => cellLabelAux rest
      | none => cellLabelAux rest

def cellPersonName (v : Str) : Option Str :=
  if v ≠ [] ∧ isLikelyPersonName v then some v
  else cellLabelAux v

/-- Scan one row (first three columns); a later matching cell overwrites an
earlier one, as the eachCell callback keeps running. -/
def rowPersonScan (row : List Str) : Option Str :=
  row.enum.foldl (fun acc p =>
    if 3 < p.1 + 1 then acc
    else
      match cellPersonName (sanitizeCellValue p.2) with
      | some nm => some nm
      | none => acc) none

def findPersonInRows : List (List Str) → Option Str
  | [] => none
  | row :: rest =>
      match rowPersonScan row with
      | some nm => some nm
      | none => findPersonInRows rest

def extractSheetAsPerson (ws : Worksheet) : Option (Str × Str) :=
  let ok := isLikelyPersonName ws.name || (findPersonInRows (ws.rows.take 5)).isSome
  if ok then
    let nameWithHonorific := ensureHonorific ws.name
    if nameWithHonorific = [] then none
    else
      let contentParts := ws.rows.filterMap (fun row =>
        let rowText := trimStr (List.intercalate [' '] (row.filterMap (fun cell =>
          let v := sanitizeCellValue cell
          if v ≠ [] ∧ v ≠ nameWithHonorific ∧ v ≠ ws.name then some v else none)))
        if rowText ≠ [] then some rowText else none)
      let content := trimStr (List.intercalate ['\n'] contentParts)
      if 10 < content.length then some (nameWithHonorific, content) else none
  else none

/-- Strategy order: sheet-as-person, then structured columns, then inline
name markers; the first strategy yielding records wins. -/
def extractRecordsFromSheet (ws : Worksheet) : List (Str × Str) :=
  match extractSheetAsPerson ws with
  | some r => [r]
  | none =>
      let structured := extractStructuredRecords ws
      if structured ≠ [] then structured
      else
        let patternBased := extractByNamePatterns ws
        if patternBased ≠ [] then patternBased
        else []

def NO_RECORDS_MSG : Str :=
  "Excelファイルから利用者記録を抽出できませんでした。ファイル形式を確認してください。".toList

def mergeRecordIntoSections (sections : List (Str × Str)) (r : Str × Str) :
    List (Str × Str) :=
  if r.1 ≠ [] ∧ r.2 ≠ [] then
    let content := truncateContent r.2
    match mget sections r.1 with
    | some existing =>
        mset sections r.1 (truncateContent (existing ++ '\n' :: '\n' :: content))
    | none => mset sections r.1 content
  else sections

def extractFromExcel (wss : List Worksheet) : Except Str (List (Str × Str)) :=
  let sections := wss.foldl (fun secs ws =>
    (extractRecordsFromSheet ws).foldl mergeRecordIntoSections secs) []
  if sections = [] then Except.error NO_RECORDS_MSG else Except.ok sections

/- ===== Cross-File Aggregator (excel-merger, part_005; and
         summarize-and-merge.ts) ===== -/

/-- Exact n digits. -/
def digitsTake (s : Str) (n : Nat) : Option Str :=
  let t := s.take n
  if t.length = n ∧ t.all isDigit then some t else none

def isDateSep1 (c : Char) : Bool := c = '年' ∨ c = '-' ∨ c = '/'

def isDateSep2 (c : Char) : Bool := c = '月' ∨ c = '-' ∨ c = '/'

/-- Greedy (\d{1,2})[日]? day capture. -/
def dayTake (s : Str) : Option Str :=
  match digitsTake s 2 with
  | some d => some d
  | none => digitsTake s 1

def monthDayOneDigit (s : Str) : Option (Str × Str) :=
  match digitsTake s 1 with
  | some m =>
      match (s.drop 1).head? with
      | some c2 =>
          if isDateSep2 c2 then
            match dayTake (s.drop 2) with
            | some d => some (m, d)
            | none => none
          else none
      | none => none
  | none => none

/-- (\d{1,2})[月\-\/](\d{1,2})[日]? from the current position, two-digit
month first, backtracking to the one-digit month. -/
def monthDayAt (s : Str) : Option (Str × Str) :=
  match digitsTake s 2 with
  | some m =>
      match (s.drop 2).head? with
      | some c2 =>
          if isDateSep2 c2 then
            match dayTake (s.drop 3) with
            | some d => some (m, d)
            | none => monthDayOneDigit s
          else monthDayOneDigit s
      | none => monthDayOneDigit s
  | none => monthDayOneDigit s

/-- Pattern /(\d{4})[年\-\/](\d{1,2})[月\-\/](\d{1,2})[日]?/ at one
position. -/
def p1At (s : Str) : Option (Str × Str × Str) :=
  match digitsTake s 4 with
  | none => none
  | some y =>
      match (s.drop 4).head? with
      | some c1 =>
          if isDateSep1 c1 then
            match monthDayAt (s.drop 5) with
            | some md => some (y, md.1, md.2)
            | none => none
          else none
      | none => none

/-- Pattern /(\d{4})(\d{2})(\d{2})/ at one position. -/
def p2At (s : Str) : Option (Str × Str × Str) :=
  match digitsTake s 8 with
  | some t => some (t.take 4, (t.drop 4).take 2, t.drop 6)
  | none => none

def findP1 : Str → Option (Str × Str × Str)
  | [] => none
  | c :: rest =>
      match p1At (c :: rest) with
      | some r => some r
      | none => findP1 rest

def findP2 : Str → Option (Str × Str × Str)
  | [] => none
  | c :: rest =>
      match p2At (c :: rest) with
      | some r => some r
      | none => findP2 rest

def findP3 : Str → Option (Str × Str)
  | [] => none
  | c :: rest =>
      match monthDayAt (c :: rest) with
      | some r => some r
      | none => findP3 rest

def fmtYMD (y m d : Str) : Str :=
  y ++ "年".toList ++ m ++ "月".toList ++ d ++ "日".toList

/-- extractDateFromFileName; the current year (for month-day-only matches)
is passed in explicitly. -/
def extractDateFromFileName (currentYear : Nat) (fileName : Str) : Option Str :=
  match findP1 fileName with
  | some r => some (fmtYMD r.1 r.2.1 r.2.2)
  | none =>
      match findP2 fileName with
      | some r => some (fmtYMD r.1 r.2.1 r.2.2)
      | none =>
          match findP3 fileName with
          | some r => some (fmtYMD (natToStr currentYear) r.1 r.2)
          | none => none

structure PersonData where
  name : Str
  content : Str
  sourceFile : Str
  date : Option Str
deriving DecidableEq

/-- Lexicographic code-point comparison; stands in for localeCompare, whose
collation agrees on the equality case relied upon here. -/
def strCmp : Str → Str → Ordering
  | [], [] => Ordering.eq
  | [], _ :: _ => Ordering.lt
  | _ :: _, [] => Ordering.gt
  | a :: as, b :: bs =>
      if a < b then Ordering.lt
      else if b < a then Ordering.gt
      else strCmp as bs

/-- The sort comparator of groupByPerson: date when both present, else
source filename. -/
def pdCmp (a b : PersonData) : Ordering :=
  match a.date, b.date with
  | some da, some db => strCmp da db
  | _, _ => strCmp a.sourceFile b.sourceFile

/-- Stable insertion: x goes after every element it does not strictly
precede, which matches a stable Array.prototype.sort. -/
def insertCmp (cmp : α → α → Ordering) (x : α) : List α → List α
  | [] => [x]
  | y :: ys =>
      match cmp x y with
      | Ordering.lt => x :: y :: ys
      | _ => y :: insertCmp cmp x ys

def sortCmp (cmp : α → α → Ordering) (l : List α) : List α :=
  l.foldl (fun acc x => insertCmp cmp x acc) []

/-- One file of a merge batch: original filename and workbook. -/
abbrev MergeFile := Str × List Worksheet

/-- The records contributed by one file (a failed extraction is skipped). -/
def fileBlock (currentYear : Nat) (f : MergeFile) : List PersonData :=
  match extractFromExcel f.2 with
  | Except.error _ => []
  | Except.ok sections =>
      sections.map (fun p =>
        ⟨p.1, p.2, f.1, extractDateFromFileName currentYear f.1⟩)

def collectPersonData (currentYear : Nat) (files : List MergeFile) :
    List PersonData :=
  files.foldl (fun acc f => acc ++ fileBlock currentYear f) []

/-- grouped.get(name) push semantics of groupByPerson. -/
def gpush : List (Str × List PersonData) → PersonData →
    List (Str × List PersonData)
  | [], item => [(item.name, [item])]
  | (n, items) :: rest, item =>
      if n = item.name then (n, items ++ [item]) :: rest
      else (n, items) :: gpush rest item

def groupByPerson (data : List PersonData) : List (Str × List PersonData) :=
  (data.foldl gpush []).map (fun g => (g.1, sortCmp pdCmp g.2))

/-- The combined-content block of setupPersonSheet (sources and contents of
the sorted items, joined by the 50-character separator). -/
def combinedContentOf (items : List PersonData) : Str :=
  List.intercalate ("\n\n".toList ++ List.replicate 50 '=' ++ "\n\n".toList)
    (items.map (fun it => "【".toList ++ it.sourceFile ++ "】\n".toList ++ it.content))

/-- The combined content the merge path produces for one individual. -/
def mergedCombinedFor (currentYear : Nat) (files : List MergeFile)
    (name : Str) : Str :=
  match (groupByPerson (collectPersonData currentYear files)).find?
      (fun g => g.1 = name) with
  | some g => combinedContentOf g.2
  | none => []

/-- The per-name fragment list held by the grouping map. -/
def lookupGroup (m : List (Str × List PersonData)) (name : Str) :
    List PersonData :=
  match m.find? (fun g => g.1 = name) with
  | some g => g.2
  | none => []

/-- summarize-and-merge step 2: per-name contents in file order (no sort),
headed by the inferred date or the source filename, joined by the
30-character separator. -/
def combineStep2 (currentYear : Nat) (pairs : List (Str × Str)) : Str :=
  List.intercalate ("\n\n".toList ++ List.replicate 30 '=' ++ "\n\n".toList)
    (pairs.map (fun p =>
      (match extractDateFromFileName currentYear p.2 with
       | some d => "【".toList ++ d ++ "の記録】".toList
       | none => "【".toList ++ p.2 ++ "】".toList) ++ '\n' :: p.1))

def gpush2 : List (Str × List (Str × Str)) → Str → Str × Str →
    List (Str × List (Str × Str))
  | [], n, pr => [(n, [pr])]
  | (n0, items) :: rest, n, pr =>
      if n0 = n then (n0, items ++ [pr]) :: rest
      else (n0, items) :: gpush2 rest n pr

/-- The combined SectionMap of summarizeAndMergeExcelFiles before
summarization (steps 1 and 2). -/
def combinedSectionsOf (currentYear : Nat) (files : List MergeFile) :
    List (Str × Str) :=
  (files.foldl (fun acc f =>
      match extractFromExcel f.2 with
      | Except.error _ => acc
      | Except.ok sections =>
          sections.foldl (fun a p => gpush2 a p.1 (p.2, f.1)) acc) []).map
    (fun g => (g.1, combineStep2 currentYear g.2))

/- ===== Worksheet-name disambiguation (excel-generator.ts lines 4-35;
         summarize-and-merge.ts lines 348-368) ===== -/

/-- One of the characters removed from sheet names by the EXCEL_FORBIDDEN
regex. -/
def isForbiddenChar (c : Char) : Bool :=
  c = '[' || c = ']' || c = '*' || c = ':' || c = '/' || c = '\\' || c = '?'

def stripForbidden (s : Str) : Str := s.filter (fun c => !(isForbiddenChar c))

/-- sanitizeSheetName (excel-generator.ts lines 13-16): strip the forbidden
characters and keep at most 31 characters. -/
def sanitizeSheetName (name : Str) : Str := (stripForbidden name).take 31

/-- The CIRCLED_NUMBERS table mapping 1..20 to the circled-digit glyphs. -/
def CIRCLED_NUMBERS : List (Nat × Char) :=
  [(1, '①'), (2, '②'), (3, '③'), (4, '④'), (5, '⑤'),
   (6, '⑥'), (7, '⑦'), (8, '⑧'), (9, '⑨'), (10, '⑩'),
   (11, '⑪'), (12, '⑫'), (13, '⑬'), (14, '⑭'), (15, '⑮'),
   (16, '⑯'), (17, '⑰'), (18, '⑱'), (19, '⑲'), (20, '⑳')]

/-- CIRCLED_NUMBERS[n] with the parenthesized-integer fallback. -/
def circledFor (n : Nat) : Str :=
  match CIRCLED_NUMBERS.lookup n with
  | some c => [c]
  | none => '(' :: (natToStr n ++ [')'])

def msetN : List (Str × Nat) → Str → Nat → List (Str × Nat)
  | [], k, v => [(k, v)]
  | e :: rest, k, v => if e.1 = k then (k, v) :: rest else e :: msetN rest k v

def mgetN (m : List (Str × Nat)) (k : Str) : Option Nat :=
  match m.find? (fun e => e.1 = k) with
  | some e => some e.2
  | none => none

def mhasN (m : List (Str × Nat)) (k : Str) : Bool :=
  (m.find? (fun e => e.1 = k)).isSome

/-- assignUniqueSheetName (excel-generator.ts lines 18-35).  The seen map is
keyed on the raw base name, and the returned label always passes through
sanitizeSheetName; returns the label together with the updated map. -/
def assignUniqueSheetName (base : Str) (seen : List (Str × Nat)) :
    Str × List (Str × Nat) :=
  if mhasN seen base then
    let count := (mgetN seen base).getD 0 + 1
    let circled := circledFor (count - 1)
    let candidate :=
      if 31 < (base ++ circled).length then
        base.take (31 - circled.length) ++ circled
      else base ++ circled
    (sanitizeSheetName candidate, msetN seen base count)
  else (sanitizeSheetName base, msetN seen base 1)

/-- The assignUniqueSheetName variant of summarize-and-merge.ts lines
348-368: the base is stripped and capped at 25 characters first, the seen
map is keyed on that cleaned name, and the result is not sanitized again. -/
def assignUniqueSheetNameMerge (base : Str) (seen : List (Str × Nat)) :
    Str × List (Str × Nat) :=
  let cleanName := (stripForbidden base).take 25
  if mhasN seen cleanName then
    let count := (mgetN seen cleanName).getD 0 + 1
    let circled := circledFor (count - 1)
    let candidate :=
      if 31 < (cleanName ++ circled).length then
        cleanName.take (31 - circled.length) ++ circled
      else cleanName ++ circled
    (candidate, msetN seen cleanName count)
  else (cleanName, msetN seen cleanName 1)

/-- The sequence of sheet labels buildExcel assigns to a list of summary
names (excel-generator.ts lines 37-45), threading the seen map. -/
def assignLabels : List Str → List (Str × Nat) → List Str
  | [], _ => []
  | b :: bs, seen =>
      (assignUniqueSheetName b seen).1 ::
        assignLabels bs (assignUniqueSheetName b seen).2

/-- The label sequence of createMergedExcel (summarize-and-merge.ts), using
the merge variant. -/
def assignLabelsMerge : List Str → List (Str × Nat) → List Str
  | [], _ => []
  | b :: bs, seen =>
      (assignUniqueSheetNameMerge b seen).1 ::
        assignLabelsMerge bs (assignUniqueSheetNameMerge b seen).2

/- ===== PDF text extraction (pdf-extractor.ts lines 5-128) and the route
         quality gate (part_003 lines 640-651) ===== -/

/-- Leftmost occurrence of a literal pattern: some (pre, post) when
s = pre ++ pat ++ post at the first occurrence. -/
def splitFirst (pat : Str) : Str → Option (Str × Str)
  | [] => if isPref pat [] then some ([], []) else none
  | c :: rest =>
      if isPref pat (c :: rest) then some ([], (c :: rest).drop pat.length)
      else
        match splitFirst pat rest with
        | some (pre, post) => some (c :: pre, post)
        | none => none

/-- The successive captures of the BT..ET text-object pattern of
pdf-extractor.ts line 17.  The lazy body between the greedy whitespace
guards makes each capture the whitespace-trimmed text strictly between a BT
marker and the first ET marker after it; scanning resumes after that ET. -/
def btEtBlocksFuel : Nat → Str → List Str
  | 0, _ => []
  | fuel + 1, s =>
      match splitFirst "BT".toList s with
      | none => []
      | some (_, afterBT) =>
          match splitFirst "ET".toList afterBT with
          | none => []
          | some (mid, afterET) => trimStr mid :: btEtBlocksFuel fuel afterET

/-- The successive captures of the stream..endstream pattern of
pdf-extractor.ts line 52, with the same trimming semantics. -/
def streamBlocksFuel : Nat → Str → List Str
  | 0, _ => []
  | fuel + 1, s =>
      match splitFirst "stream".toList s with
      | none => []
      | some (_, afterS) =>
          match splitFirst "endstream".toList afterS with
          | none => []
          | some (mid, afterE) => trimStr mid :: streamBlocksFuel fuel afterE

/-- The regex tail after a lazy capture: a whitespace run followed by the
literal keyword; returns what follows the keyword. -/
def wsThen (kw : Str) : Str → Option Str
  | [] => if isPref kw [] then some [] else none
  | c :: r =>
      if isPref kw (c :: r) then some ((c :: r).drop kw.length)
      else if isJsWs c then wsThen kw r else none

/-- Lazy capture up to the first closing character that is followed by a
whitespace run and the keyword; returns the capture and the text after the
keyword. -/
def findCapture (close : Char) (kw : Str) : Str → Option (Str × Str)
  | [] => none
  | c :: r =>
      if c = close then
        match wsThen kw r with
        | some rest => some ([], rest)
        | none =>
            match findCapture close kw r with
            | some (cap, rest) => some (c :: cap, rest)
            | none => none
      else
        match findCapture close kw r with
        | some (cap, rest) => some (c :: cap, rest)
        | none => none

/-- Global scan for parenthesized strings followed by the Tj operator
(pdf-extractor.ts line 23). -/
def tjScanFuel : Nat → Str → List Str
  | 0, _ => []
  | _ + 1, [] => []
  | fuel + 1, c :: r =>
      if c = '(' then
        match findCapture ')' "Tj".toList r with
        | some (cap, rest) => cap :: tjScanFuel fuel rest
        | none => tjScanFuel fuel r
      else tjScanFuel fuel r

/-- Global scan for bracketed arrays followed by the TJ operator
(pdf-extractor.ts line 34). -/
def tjArrScanFuel : Nat → Str → List Str
  | 0, _ => []
  | _ + 1, [] => []
  | fuel + 1, c :: r =>
      if c = '[' then
        match findCapture ']' "TJ".toList r with
        | some (cap, rest) => cap :: tjArrScanFuel fuel rest
        | none => tjArrScanFuel fuel r
      else tjArrScanFuel fuel r

/-- Global scan for parenthesized strings inside a TJ array
(pdf-extractor.ts line 39). -/
def parenStringsFuel : Nat → Str → List Str
  | 0, _ => []
  | _ + 1, [] => []
  | fuel + 1, c :: r =>
      if c = '(' then
        match findCapture ')' [] r with
        | some (cap, rest) => cap :: parenStringsFuel fuel rest
        | none => parenStringsFuel fuel r
      else parenStringsFuel fuel r

/-- Longest leading run of octal digits, as parseInt(octal, 8) followed by
String.fromCharCode; a NaN parse becomes code point 0. -/
def octValAux : Nat → Str → Nat
  | acc, [] => acc
  | acc, c :: r =>
      if '0' ≤ c ∧ c ≤ '7' then octValAux (8 * acc + (c.toNat - 48)) r else acc

def octVal (s : Str) : Nat := octValAux 0 s

/-- Replacement of backslash-plus-three-digits escapes by the character with
the parsed octal code (pdf-extractor.ts lines 69 and 112). -/
def decodeOctalFuel : Nat → Str → Str
  | 0, s => s
  | _ + 1, [] => []
  | fuel + 1, c :: rest =>
      if c = '\\' then
        match rest with
        | d1 :: d2 :: d3 :: rest2 =>
            if d1.isDigit && d2.isDigit && d3.isDigit then
              Char.ofNat (octVal [d1, d2, d3] % 65536) :: decodeOctalFuel fuel rest2
            else c :: decodeOctalFuel fuel rest
        | _ => c :: decodeOctalFuel fuel rest
      else c :: decodeOctalFuel fuel rest

/-- decodePDFString (pdf-extractor.ts lines 109-119): the octal replacement
followed by the six literal escape replacements, each applied globally to
the previous result. -/
def decodePDFString (s : Str) : Str :=
  jsReplaceAll "\\)".toList ")".toList
    (jsReplaceAll "\\(".toList "(".toList
      (jsReplaceAll "\\\\".toList "\\".toList
        (jsReplaceAll "\\t".toList "\t".toList
          (jsReplaceAll "\\r".toList "\r".toList
            (jsReplaceAll "\\n".toList "\n".toList
              (decodeOctalFuel s.length s))))))

/-- A decoded string joins textParts only when it is truthy with a truthy
trim (pdf-extractor.ts lines 27-29 and 43-45). -/
def pushDecoded (cap : Str) : Option Str :=
  if decodePDFString cap = [] then none
  else if trimStr (decodePDFString cap) = [] then none
  else some (decodePDFString cap)

/-- The texts one BT..ET block contributes: the Tj captures first, then the
strings inside TJ arrays (pdf-extractor.ts lines 20-49). -/
def blockTexts (block : Str) : List Str :=
  (tjScanFuel block.length block).filterMap pushDecoded ++
    (tjArrScanFuel block.length block).flatMap
      (fun arr => (parenStringsFuel arr.length arr).filterMap pushDecoded)

/-- The character class of extractReadableText (pdf-extractor.ts line
123). -/
def isReadableChar (c : Char) : Bool :=
  (0x20 ≤ c.toNat && c.toNat ≤ 0x7E) ||
  (0x3040 ≤ c.toNat && c.toNat ≤ 0x309F) ||
  (0x30A0 ≤ c.toNat && c.toNat ≤ 0x30FF) ||
  (0x4E00 ≤ c.toNat && c.toNat ≤ 0x9FAF) ||
  (0x3400 ≤ c.toNat && c.toNat ≤ 0x4DBF)

/-- The maximal runs of characters satisfying p, in order. -/
def runsOfFuel (p : Char → Bool) : Nat → Str → List Str
  | 0, _ => []
  | _ + 1, [] => []
  | fuel + 1, c :: r =>
      if p c then (c :: r.takeWhile p) :: runsOfFuel p fuel (r.dropWhile p)
      else runsOfFuel p fuel r

/-- extractReadableText (pdf-extractor.ts lines 121-128). -/
def extractReadableText (content : Str) : Str :=
  match runsOfFuel isReadableChar content.length content with
  | [] => []
  | runs => trimStr (List.intercalate " ".toList runs)

/-- Collapse of every whitespace run to a single space (pdf-extractor.ts
line 76). -/
def collapseWsFuel : Nat → Str → Str
  | 0, s => s
  | _ + 1, [] => []
  | fuel + 1, c :: r =>
      if isJsWs c then ' ' :: collapseWsFuel fuel (r.dropWhile isJsWs)
      else c :: collapseWsFuel fuel r

/-- First character class of the Japanese fallback pattern
(pdf-extractor.ts line 82). -/
def inJp1 (c : Char) : Bool :=
  (0x3041 ≤ c.toNat && c.toNat ≤ 0x3093) ||
  (0x30A1 ≤ c.toNat && c.toNat ≤ 0x30F6) ||
  c = 'ー' ||
  (0x4E00 ≤ c.toNat && c.toNat ≤ 0x9FAF) ||
  (0xFF10 ≤ c.toNat && c.toNat ≤ 0xFF19) ||
  (0xFF21 ≤ c.toNat && c.toNat ≤ 0xFF3A) ||
  (0xFF41 ≤ c.toNat && c.toNat ≤ 0xFF5A)

def JP_PUNCT : List Char :=
  ['。', '、', '！', '？', '「', '」', '『', '』', '（', '）', '｛', '｝',
   '［', '］', '【', '】', '〈', '〉', '《', '》', '・', '…', 'ー', '－',
   '―', '～', '〜']

/-- Continuation character class of the Japanese fallback pattern. -/
def inJp2 (c : Char) : Bool := inJp1 c || isJsWs c || JP_PUNCT.contains c

/-- The matches of the Japanese fallback pattern: a class-one character
followed by a nonempty greedy run of continuation characters. -/
def jpMatchesFuel : Nat → Str → List Str
  | 0, _ => []
  | _ + 1, [] => []
  | fuel + 1, c :: r =>
      if inJp1 c then
        match r with
        | [] => []
        | c2 :: _ =>
            if inJp2 c2 then
              (c :: r.takeWhile inJp2) :: jpMatchesFuel fuel (r.dropWhile inJp2)
            else jpMatchesFuel fuel r
      else jpMatchesFuel fuel r

def PDF_FAIL_MSG : Str :=
  "PDFの読み取りに失敗しました。テキスト抽出可能なPDFファイルか確認してください。".toList

/-- textParts.join of pdf-extractor.ts line 65: the BT..ET block texts
followed by the readable stream texts, joined with single spaces. -/
def pdfJoined (s : Str) : Str :=
  List.intercalate " ".toList
    ((btEtBlocksFuel s.length s).flatMap blockTexts ++
      (streamBlocksFuel s.length s).filterMap
        (fun sc =>
          if extractReadableText sc = [] then none
          else some (extractReadableText sc)))

/-- The cleanup chain of pdf-extractor.ts lines 68-77: escape decoding,
whitespace collapse and trim. -/
def pdfCleaned (s : Str) : Str :=
  trimStr
    (collapseWsFuel (decodePDFString (pdfJoined s)).length
      (decodePDFString (pdfJoined s)))

/-- The extracted text after the Japanese fallback of pdf-extractor.ts
lines 80-95. -/
def pdfFinal (s : Str) : Str :=
  if pdfCleaned s = [] ∨ (pdfCleaned s).length < 100 then
    match (jpMatchesFuel s.length s).filter (fun m => 10 < m.length) with
    | [] => pdfCleaned s
    | ts => List.intercalate "\n".toList ts
  else pdfCleaned s

/-- extractTextFromPDF (pdf-extractor.ts lines 5-107), over the UTF-8
decoded byte stream.  The minimum-length throw at line 98 is caught by the
surrounding try, so every failure surfaces with the catch-level message. -/
def extractTextFromPDF (pdfString : Str) : Except Str Str :=
  if pdfFinal pdfString = [] ∨ (pdfFinal pdfString).length < 100 then
    Except.error PDF_FAIL_MSG
  else Except.ok (pdfFinal pdfString)

/-- Number of U+FFFD replacement characters in a text. -/
def countFFFD (t : Str) : Nat := (t.filter (fun c => c = '�')).length

def PDF_SHORT_MSG : Str :=
  "PDFからテキストを抽出できませんでした。Excelファイル（.xlsx）の使用を推奨します".toList

def PDF_GARBLED_MSG : Str :=
  "PDFの文字が正しく読み取れません。Excelファイル（.xlsx）の使用を強く推奨します".toList

/-- The PDF quality gate of the summarize route (part_003 lines 643-651):
reject when the trimmed text is shorter than 100 characters or when more
than 10% of the characters are replacement characters. -/
def pdfRouteCheck (text : Str) : Except Str Str :=
  if text = [] ∨ (trimStr text).length < 100 then Except.error PDF_SHORT_MSG
  else if text.length < 10 * countFFFD text then Except.error PDF_GARBLED_MSG
  else Except.ok text

/-- The route-level PDF text pipeline: extraction followed by the quality
gate (part_003 lines 640-651). -/
def pdfPipelineText (s : Str) : Except Str Str :=
  match extractTextFromPDF s with
  | Except.error e => Except.error e
  | Except.ok t => pdfRouteCheck t

/- =====================  THEOREMS  ===================== -/

theorem truncMarker_length : TRUNC_MARKER.length = 9 := by decide

theorem truncateContent_of_le (c : Str) (h : c.length ≤ MAX_CHARS_PER_SECTION) :
    truncateContent c = c := by
  unfold truncateContent
  rw [if_neg (by omega)]

theorem truncateContent_of_gt (c : Str) (h : MAX_CHARS_PER_SECTION < c.length) :
    truncateContent c = c.take MAX_CHARS_PER_SECTION ++ TRUNC_MARKER := by
  unfold truncateContent
  rw [if_pos h]

theorem chunksFuel_join (k : Nat) :
    ∀ (fuel : Nat) (l : List α), (chunksFuel k fuel l).flatten = l := by
  intro fuel
  induction fuel with
  | zero =>
      intro l
      cases l with
      | nil => simp [chunksFuel]
      | cons c t => simp [chunksFuel]
  | succ fuel ih =>
      intro l
      cases l with
      | nil => simp [chunksFuel]
      | cons c t =>
          simp only [chunksFuel, List.flatten_cons]
          rw [ih]
          exact List.take_append_drop k (c :: t)

theorem foldl_batches_eq_foldl_join (step : List (Str × Str) → Str × Str → List (Str × Str))
    (g : Str × Str → Str × Str) :
    ∀ (bs : List (List (Str × Str))) (init : List (Str × Str)),
      bs.foldl (fun m b => (b.map g).foldl step m) init =
        ((bs.flatten).map g).foldl step init := by
  intro bs
  induction bs with
  | nil => intro init; simp
  | cons b bs ih =>
      intro init
      simp only [List.foldl_cons, List.flatten_cons, List.map_append, List.foldl_append]
      exact ih _

theorem mset_notMem (m : List (Str × Str)) (k : Str) (v : Str)
    (h : ∀ e ∈ m, e.1 ≠ k) : mset m k v = m ++ [(k, v)] := by
  induction m with
  | nil => rfl
  | cons e rest ih =>
      simp only [mset]
      rw [if_neg (h e (List.mem_cons_self e rest))]
      simp only [List.cons_append, List.cons.injEq, true_and]
      exact ih (fun e2 he2 => h e2 (List.mem_cons_of_mem e he2))

theorem foldl_mset_disjoint :
    ∀ (ps acc : List (Str × Str)),
      (∀ e ∈ ps, ∀ e2 ∈ acc, e2.1 ≠ e.1) → (ps.map Prod.fst).Nodup →
      ps.foldl (fun m r => mset m r.1 r.2) acc = acc ++ ps := by
  intro ps
  induction ps with
  | nil => intro acc _ _; simp
  | cons p ps ih =>
      intro acc hdisj hnd
      simp only [List.foldl_cons]
      have hstep : mset acc p.1 p.2 = acc ++ [p] := by
        have := mset_notMem acc p.1 p.2 (fun e2 he2 => hdisj p (List.mem_cons_self p ps) e2 he2)
        simpa using this
      rw [hstep]
      have hnd2 : (ps.map Prod.fst).Nodup := by
        simp only [List.map_cons, List.nodup_cons] at hnd
        exact hnd.2
      have hfresh : p.1 ∉ ps.map Prod.fst := by
        simp only [List.map_cons, List.nodup_cons] at hnd
        exact hnd.1
      have hdisj2 : ∀ e ∈ ps, ∀ e2 ∈ acc ++ [p], e2.1 ≠ e.1 := by
        intro e he e2 he2
        rcases List.mem_append.1 he2 with h2 | h2
        · exact hdisj e (List.mem_cons_of_mem p he) e2 h2
        · have : e2 = p := by simpa using h2
          subst this
          intro hc
          exact hfresh (hc ▸ List.mem_map_of_mem Prod.fst he)
      rw [ih (acc ++ [p]) hdisj2 hnd2]
      simp

theorem mget_of_mem_nodup :
    ∀ (ps : List (Str × Str)), (ps.map Prod.fst).Nodup →
      ∀ (n v : Str), (n, v) ∈ ps → mget ps n = some v := by
  intro ps
  induction ps with
  | nil => intro _ n v h; cases h
  | cons e rest ih =>
      intro hnd n v hm
      simp only [List.map_cons, List.nodup_cons] at hnd
      rcases List.mem_cons.1 hm with h | h
      · subst h
        simp [mget, List.find?]
      · by_cases hk : e.1 = n
        · exfalso
          exact hnd.1 (hk ▸ List.mem_map_of_mem Prod.fst h)
        · have : mget (e :: rest) n = mget rest n := by
            simp only [mget, List.find?]
            rw [decide_eq_false hk]
          rw [this]
          exact ih hnd.2 n v h

/-- C1: the orchestrator output, one entry per input, as a flat map. -/
theorem processSummaries_eq_map (sections : List (Str × Str)) (oracle : Oracle)
    (model : Str) (k : Nat) (hnd : (sections.map Prod.fst).Nodup) :
    processSummaries sections oracle model k =
      sections.map (fun e => (e.1, (summarizeOne e.1 e.2 oracle model).1)) := by
  unfold processSummaries
  rw [foldl_batches_eq_foldl_join, chunksFuel_join]
  have hkeys :
      ((sections.map (fun e => (e.1, (summarizeOne e.1 e.2 oracle model).1))).map Prod.fst)
        = sections.map Prod.fst := by
    rw [List.map_map]; rfl
  have := foldl_mset_disjoint
    (sections.map (fun e => (e.1, (summarizeOne e.1 e.2 oracle model).1))) []
    (by intro e _ e2 he2; cases he2) (by rw [hkeys]; exact hnd)
  simpa using this

/-- C9: the content-cap truncation step is idempotent, and in particular a
no-op on any record whose content is at most the 10000-character cap; only
content above the cap is cut, with the visible truncation marker appended. -/
theorem claim_C9_truncation_idempotent :
    (∀ c : Str, c.length ≤ MAX_CHARS_PER_SECTION → truncateContent c = c)
    ∧ (∀ c : Str, truncateContent (truncateContent c) = truncateContent c)
    ∧ (∀ c : Str, MAX_CHARS_PER_SECTION < c.length →
        truncateContent c = c.take MAX_CHARS_PER_SECTION ++ TRUNC_MARKER) := by
  refine ⟨truncateContent_of_le, ?_, truncateContent_of_gt⟩
  intro c
  by_cases h : MAX_CHARS_PER_SECTION < c.length
  · rw [truncateContent_of_gt c h]
    have h1 : (c.take MAX_CHARS_PER_SECTION).length = MAX_CHARS_PER_SECTION := by
      rw [List.length_take]; omega
    have hlen : MAX_CHARS_PER_SECTION <
        (c.take MAX_CHARS_PER_SECTION ++ TRUNC_MARKER).length := by
      rw [List.length_append, h1, truncMarker_length]; omega
    rw [truncateContent_of_gt _ hlen]
    congr 1
    rw [List.take_append_eq_append_take, List.take_take, min_self, h1,
      Nat.sub_self, List.take_zero, List.append_nil]
  · have hle : c.length ≤ MAX_CHARS_PER_SECTION := le_of_not_lt h
    rw [truncateContent_of_le c hle, truncateContent_of_le c hle]

theorem claim_C9_witness :
    truncateContent ('a' :: []) = ('a' :: []) :=
  claim_C9_truncation_idempotent.1 ('a' :: []) (by decide)

/-- C1: for every SectionMap (a map, hence unique keys) and any behavior of
the remote model, processSummaries returns exactly one entry per input name
(same key list, hence same size and every input key present), and an item
whose model call throws gets the failure-marker string as its summary rather
than making the whole call throw. -/
theorem claim_C1_processSummaries_total (sections : List (Str × Str))
    (oracle : Oracle) (model : Str) (k : Nat)
    (hnd : (sections.map Prod.fst).Nodup) :
    ((processSummaries sections oracle model k).map Prod.fst
        = sections.map Prod.fst)
    ∧ (processSummaries sections oracle model k).length = sections.length
    ∧ (∀ n c, (n, c) ∈ sections →
        mget (processSummaries sections oracle model k) n =
          some (summarizeOne n c oracle model).1)
    ∧ (∀ n c e, (n, c) ∈ sections →
        oracle (mkSummaryReq model n c) = ApiOutcome.fail e →
        mget (processSummaries sections oracle model k) n
          = some (mkFailMarker e)) := by
  rw [processSummaries_eq_map sections oracle model k hnd]
  have hkeys :
      ((sections.map (fun e => (e.1, (summarizeOne e.1 e.2 oracle model).1))).map
        Prod.fst) = sections.map Prod.fst := by
    rw [List.map_map]; rfl
  refine ⟨hkeys, by rw [List.length_map], ?_, ?_⟩
  · intro n c hm
    exact mget_of_mem_nodup _ (by rw [hkeys]; exact hnd) n _
      (List.mem_map_of_mem (fun e => (e.1, (summarizeOne e.1 e.2 oracle model).1)) hm)
  · intro n c e hm hfail
    have := mget_of_mem_nodup _ (by rw [hkeys]; exact hnd) n
      ((summarizeOne n c oracle model).1)
      (List.mem_map_of_mem (fun e => (e.1, (summarizeOne e.1 e.2 oracle model).1)) hm)
    rw [this]
    have hres : (summarizeOne n c oracle model).1 = mkFailMarker e := by
      unfold summarizeOne
      rw [hfail]
    rw [hres]

theorem claim_C1_witness :
    (processSummaries [("A様".toList, "x".toList)]
        (fun _ => ApiOutcome.fail "b".toList) "m".toList 1).map Prod.fst
      = ["A様".toList] :=
  (claim_C1_processSummaries_total [("A様".toList, "x".toList)]
    (fun _ => ApiOutcome.fail "b".toList) "m".toList 1 (by decide)).1

/-- C5: when the first model call returns a usable summary, the corrective
follow-up is issued exactly when the newline-free character count of the
summary lies outside the 200 to 300 band, the follow-up is issued exactly
once, and its result is accepted with no further length check; an in-band
summary issues no follow-up and is returned as is. -/
theorem claim_C5_adjust_iff_out_of_band (name content model s : Str)
    (oracle : Oracle)
    (h1 : oracle (mkSummaryReq model name content) = ApiOutcome.ok (some s))
    (h2 : trimStr s ≠ []) :
    ((charCountNoNewlines (trimStr s) < 200 ∨ 300 < charCountNoNewlines (trimStr s)) →
      (summarizeOne name content oracle model).2 =
        [mkSummaryReq model name content, mkAdjustReq model (trimStr s)]
      ∧ (∀ o2, oracle (mkAdjustReq model (trimStr s)) = ApiOutcome.ok o2 →
          (summarizeOne name content oracle model).1 = orElseNonempty o2 (trimStr s))
      ∧ (∀ e, oracle (mkAdjustReq model (trimStr s)) = ApiOutcome.fail e →
          (summarizeOne name content oracle model).1 = mkFailMarker e))
    ∧ (¬(charCountNoNewlines (trimStr s) < 200 ∨ 300 < charCountNoNewlines (trimStr s)) →
      (summarizeOne name content oracle model).2 = [mkSummaryReq model name content]
      ∧ (summarizeOne name content oracle model).1 = trimStr s) := by
  have hsum : orElseNonempty (some s) GEN_FAIL_MSG = trimStr s := by
    simp [orElseNonempty, h2]
  constructor
  · intro hout
    unfold summarizeOne
    rw [h1]
    simp only [hsum]
    rw [if_pos hout]
    refine ⟨?_, ?_, ?_⟩
    · cases hadj : oracle (mkAdjustReq model (trimStr s)) <;> simp [hadj]
    · intro o2 hadj; rw [hadj]
    · intro e hadj; rw [hadj]
  · intro hin
    unfold summarizeOne
    rw [h1]
    simp only [hsum]
    rw [if_neg hin]
    exact ⟨rfl, rfl⟩

theorem claim_C5_witness :
    (summarizeOne "A様".toList "x".toList
        (fun _ => ApiOutcome.ok (some (List.replicate 180 'あ'))) "m".toList).2 =
      [mkSummaryReq "m".toList "A様".toList "x".toList,
       mkAdjustReq "m".toList (List.replicate 180 'あ')] := by
  have h := claim_C5_adjust_iff_out_of_band "A様".toList "x".toList "m".toList
    (List.replicate 180 'あ')
    (fun _ => ApiOutcome.ok (some (List.replicate 180 'あ')))
    (by rfl) (by decide)
  have h180 : trimStr (List.replicate 180 'あ') = List.replicate 180 'あ' := by decide
  have := (h.1 (by rw [h180]; decide)).1
  rw [h180] at this
  exact this

theorem isPref_nil_false (p : Str) (hp : p ≠ []) : isPref p [] = false := by
  cases p with
  | nil => exact absurd rfl hp
  | cons a l => rfl

theorem containsSub_append_left_foreign (p0 : Char) (pt : Str) :
    ∀ (a X : Str), p0 ∉ a →
      containsSub (p0 :: pt) (a ++ X) = containsSub (p0 :: pt) X := by
  intro a
  induction a with
  | nil => intro X _; rfl
  | cons c a ih =>
      intro X ha
      have hc : ¬(p0 = c) := fun h => ha (h ▸ List.mem_cons_self c a)
      simp only [List.cons_append, containsSub, isPref]
      rw [if_neg hc]
      simp only [Bool.false_or]
      exact ih X (fun h => ha (List.mem_cons_of_mem c h))

theorem replaceAll_not_isPref (pat rep : Str) (hrep : rep ≠ []) :
    ∀ fuel : Nat, ∀ s p : Str, s.length ≤ fuel → p ≠ [] →
      (∀ c ∈ p, c ∉ rep) → isPref p s = false →
      isPref p (replaceAllFuel pat rep fuel s) = false := by
  intro fuel
  induction fuel with
  | zero =>
      intro s p hlen hp _ _
      have hs : s = [] := List.length_eq_zero.mp (Nat.le_zero.mp hlen)
      subst hs
      simpa [replaceAllFuel] using isPref_nil_false p hp
  | succ fuel ih =>
      intro s p hlen hp hdisj hpref
      cases s with
      | nil => simpa [replaceAllFuel] using isPref_nil_false p hp
      | cons c rest =>
          obtain ⟨p0, pt, rfl⟩ : ∃ p0 pt, p = p0 :: pt := by
            cases p with
            | nil => exact absurd rfl hp
            | cons a l => exact ⟨a, l, rfl⟩
          by_cases hm : isPref pat (c :: rest) = true
          · simp only [replaceAllFuel, hm, if_true]
            obtain ⟨r0, rt, hr⟩ : ∃ r0 rt, rep = r0 :: rt := by
              cases rep with
              | nil => exact absurd rfl hrep
              | cons a l => exact ⟨a, l, rfl⟩
            subst hr
            have hne : ¬(p0 = r0) := by
              intro h
              exact hdisj p0 (List.mem_cons_self p0 pt) (h ▸ List.mem_cons_self r0 rt)
            simp only [List.cons_append, isPref]
            rw [if_neg hne]
          · have hm2 : isPref pat (c :: rest) = false := by
              cases hb : isPref pat (c :: rest) with
              | false => rfl
              | true => exact absurd hb hm
            simp only [replaceAllFuel, hm2, Bool.false_eq_true, if_false]
            by_cases hc : p0 = c
            · subst hc
              simp only [isPref, if_pos rfl]
              have hpt : isPref pt rest = false := by
                have := hpref
                simp only [isPref, if_pos rfl] at this
                exact this
              have hptne : pt ≠ [] := by
                intro h
                subst h
                simp [isPref] at hpt
              exact ih rest pt (by simpa using Nat.le_of_succ_le_succ (by simpa using hlen))
                hptne (fun c2 hc2 => hdisj c2 (List.mem_cons_of_mem p0 hc2)) hpt
            · simp [isPref, hc]

/-- If the pattern starts with a character that never occurs in the
replacement and the replacement is non-empty, the replaced string contains
no occurrence of the pattern at all. -/
theorem replaceAll_no_occurrence (pat rep : Str) (hpat : pat ≠ [])
    (hrep : rep ≠ []) (hdisj : ∀ c ∈ pat, c ∉ rep) :
    ∀ fuel : Nat, ∀ s : Str, s.length ≤ fuel →
      containsSub pat (replaceAllFuel pat rep fuel s) = false := by
  intro fuel
  induction fuel with
  | zero =>
      intro s hlen
      have hs : s = [] := List.length_eq_zero.mp (Nat.le_zero.mp hlen)
      subst hs
      simpa [replaceAllFuel, containsSub] using isPref_nil_false pat hpat
  | succ fuel ih =>
      intro s hlen
      cases s with
      | nil => simpa [replaceAllFuel, containsSub] using isPref_nil_false pat hpat
      | cons c rest =>
          obtain ⟨p0, pt, hpeq⟩ : ∃ p0 pt, pat = p0 :: pt := by
            cases pat with
            | nil => exact absurd rfl hpat
            | cons a l => exact ⟨a, l, rfl⟩
          by_cases hm : isPref pat (c :: rest) = true
          · simp only [replaceAllFuel, hm, if_true]
            have hp0 : p0 ∉ rep := hdisj p0 (hpeq ▸ List.mem_cons_self p0 pt)
            rw [hpeq, containsSub_append_left_foreign p0 pt rep _ hp0, ← hpeq]
            apply ih
            rw [List.length_drop]
            have hp1 : 1 ≤ pat.length := by
              rw [hpeq]; simp
            simp only [List.length_cons] at hlen ⊢
            omega
          · have hm2 : isPref pat (c :: rest) = false := by
              cases hb : isPref pat (c :: rest) with
              | false => rfl
              | true => exact absurd hb hm
            simp only [replaceAllFuel, hm2, Bool.false_eq_true, if_false, containsSub]
            have hnotpref : isPref pat (c :: replaceAllFuel pat rep fuel rest) = false := by
              have hcr : replaceAllFuel pat rep (fuel + 1) (c :: rest) =
                  c :: replaceAllFuel pat rep fuel rest := by
                simp only [replaceAllFuel, hm2, Bool.false_eq_true, if_false]
              have := replaceAll_not_isPref pat rep hrep (fuel + 1) (c :: rest) pat
                hlen hpat hdisj hm2
              rw [hcr] at this
              exact this
            rw [hnotpref]
            simp only [Bool.false_or]
            exact ih rest (by simpa using Nat.le_of_succ_le_succ (by simpa using hlen))

/-- C7 counterexample: for the individual named 対象さん with content 対象,
the honorific-stripped name is 対象, and the masked body text still contains
a literal occurrence of it, because every occurrence is rewritten to the
placeholder 対象者 which itself contains the stripped name. -/
theorem claim_C7_counterexample :
    stripHonorificOnce "対象さん".toList = "対象".toList
    ∧ maskContent "対象さん".toList "対象".toList = GENERIC_PLACEHOLDER
    ∧ containsSub ("対象".toList)
        (maskContent "対象さん".toList "対象".toList) = true := by
  refine ⟨by decide, by decide, by decide⟩

/-- C7 amended: for a stripped name free of regex metacharacters — the
domain on which the dynamically built regex is the literal matcher that the
mask model embeds — the privacy mask replaces every occurrence of the
stripped name in one left-to-right pass, and the masked body text contains
no literal occurrence of the stripped name whenever the stripped name is
also non-empty and shares no character with the placeholder 対象者.  A
metacharacter in the name can make the real regex never match and leave the
body unmasked, so such names are excluded by hypothesis. -/
theorem claim_C7_mask_no_occurrence (name content : Str)
    (hsafe : isRegexSafe (stripHonorificOnce name) = true)
    (hne : stripHonorificOnce name ≠ [])
    (hdisj : ∀ c ∈ stripHonorificOnce name, c ∉ GENERIC_PLACEHOLDER) :
    containsSub (stripHonorificOnce name) (maskContent name content) = false := by
  have _hs := hsafe
  unfold maskContent jsReplaceAll
  rw [if_neg hne]
  exact replaceAll_no_occurrence (stripHonorificOnce name) GENERIC_PLACEHOLDER
    hne (by decide) hdisj content.length content le_rfl

theorem len_pos_ite (l fb : List (Str × Str)) (hfb : 1 ≤ fb.length) :
    1 ≤ (if l.length = 0 then fb else l).length := by
  by_cases h : l.length = 0
  · rw [if_pos h]; exact hfb
  · rw [if_neg h]; exact Nat.pos_of_ne_zero h

theorem fallbackSplit_length_pos (text : Str) : 1 ≤ (fallbackSplit text).length := by
  unfold fallbackSplit
  exact len_pos_ite _ _ (by simp)

/-- C2: the Segmentation Engine never returns an empty SectionMap: whatever
the pattern selection produces, an empty result falls through to
fallbackSplit, whose last resort is a single record under the fallback name;
in particular this holds for every non-empty input text. -/
theorem claim_C2_splitByPerson_nonempty (text : Str) :
    1 ≤ (splitByPerson text).length := by
  unfold splitByPerson
  exact len_pos_ite _ _ (fallbackSplit_length_pos text)

theorem isPref_take (p : Str) :
    ∀ s : Str, isPref p s = true → s.take p.length = p := by
  induction p with
  | nil => intro s _; simp
  | cons a ps ih =>
      intro s h
      cases s with
      | nil => simp [isPref] at h
      | cons b t =>
          simp only [isPref] at h
          by_cases hab : a = b
          · rw [if_pos hab] at h
            subst hab
            simp only [List.length_cons, List.take_succ_cons, List.cons.injEq, true_and]
            exact ih t h
          · rw [if_neg hab] at h
            exact absurd h (by simp)

theorem isPref_self_append : ∀ (p y : Str), isPref p (p ++ y) = true := by
  intro p
  induction p with
  | nil => intro y; rfl
  | cons a ps ih =>
      intro y
      simp only [List.cons_append, isPref, if_pos rfl]
      exact ih y

theorem isPref_append_right (p : Str) :
    ∀ (s y : Str), isPref p s = true → isPref p (s ++ y) = true := by
  induction p with
  | nil => intro s y _; rfl
  | cons a ps ih =>
      intro s y h
      cases s with
      | nil => simp [isPref] at h
      | cons b t =>
          simp only [isPref] at h ⊢
          by_cases hab : a = b
          · rw [if_pos hab] at h ⊢
            exact ih t y h
          · rw [if_neg hab] at h
            exact absurd h (by simp)

theorem isPref_exists (p : Str) :
    ∀ s : Str, isPref p s = true → ∃ y, s = p ++ y := by
  induction p with
  | nil => intro s _; exact ⟨s, rfl⟩
  | cons a ps ih =>
      intro s h
      cases s with
      | nil => simp [isPref] at h
      | cons b t =>
          simp only [isPref] at h
          by_cases hab : a = b
          · rw [if_pos hab] at h
            obtain ⟨y, hy⟩ := ih t h
            exact ⟨y, by rw [hab, hy]; rfl⟩
          · rw [if_neg hab] at h
            exact absurd h (by simp)

theorem endsWith_append_self (t x : Str) : endsWith t (x ++ t) = true := by
  unfold endsWith
  rw [List.reverse_append]
  exact isPref_self_append t.reverse x.reverse

theorem endsWith_exists (t s : Str) (h : endsWith t s = true) :
    ∃ x, s = x ++ t := by
  unfold endsWith at h
  obtain ⟨y, hy⟩ := isPref_exists t.reverse s.reverse h
  refine ⟨y.reverse, ?_⟩
  have := congrArg List.reverse hy
  simpa using this

theorem endsWithHonorific_append (x t : Str) (h : endsWithHonorific t = true) :
    endsWithHonorific (x ++ t) = true := by
  unfold endsWithHonorific at h ⊢
  unfold endsWith at h ⊢
  rw [List.reverse_append]
  rcases Bool.or_eq_true_iff.mp h with h1 | h2
  · rcases Bool.or_eq_true_iff.mp h1 with ha | hb
    · exact Bool.or_eq_true_iff.mpr (Or.inl (Bool.or_eq_true_iff.mpr
        (Or.inl (isPref_append_right _ _ _ ha))))
    · exact Bool.or_eq_true_iff.mpr (Or.inl (Bool.or_eq_true_iff.mpr
        (Or.inr (isPref_append_right _ _ _ hb))))
  · exact Bool.or_eq_true_iff.mpr (Or.inr (isPref_append_right _ _ _ h2))

theorem endsWithHonorific_ne_nil (s : Str) (h : endsWithHonorific s = true) :
    s ≠ [] := by
  intro he
  subst he
  exact absurd h (by decide)

theorem honorificAt_take (s : Str) (n : Nat) (h : honorificAt s = some n) :
    endsWithHonorific (s.take n) = true := by
  unfold honorificAt at h
  split_ifs at h with h1 h2 h3
  · have hn : n = 2 := by
      have := Option.some.inj h
      omega
    subst hn
    have := isPref_take ("さん".toList) s h1
    simpa using this ▸ (by decide : endsWithHonorific ("さん".toList) = true)
  · have hn : n = 1 := by
      have := Option.some.inj h
      omega
    subst hn
    have := isPref_take ("様".toList) s h2
    simpa using this ▸ (by decide : endsWithHonorific ("様".toList) = true)
  · have hn : n = 1 := by
      have := Option.some.inj h
      omega
    subst hn
    have := isPref_take ("氏".toList) s h3
    simpa using this ▸ (by decide : endsWithHonorific ("氏".toList) = true)

theorem scanNameAux_honorific (stop : Char → Bool) (trailOk : Str → Bool) :
    ∀ (suf pre nm : Str), scanNameAux stop trailOk pre suf = some nm →
      endsWithHonorific nm = true := by
  intro suf
  induction suf with
  | nil => intro pre nm h; simp [scanNameAux] at h
  | cons c rest ih =>
      intro pre nm h
      simp only [scanNameAux] at h
      cases hh : honorificAt (c :: rest) with
      | some n =>
          rw [hh] at h
          simp only at h
          split_ifs at h with ht hs
          · have hnm : pre.reverse ++ (c :: rest).take n = nm := Option.some.inj h
            rw [← hnm]
            exact endsWithHonorific_append _ _ (honorificAt_take (c :: rest) n hh)
          · exact ih (c :: pre) nm h
      | none =>
          rw [hh] at h
          simp only at h
          split_ifs at h with hs
          · exact ih (c :: pre) nm h

theorem dropWhile_append_suffix (pfn : Char → Bool) (t : Str)
    (hhd : ∀ hh, t.head? = some hh → pfn hh = false) :
    ∀ x : Str, ∃ z, List.dropWhile pfn (x ++ t) = z ++ t := by
  intro x
  induction x with
  | nil =>
      cases ht : t with
      | nil => exact ⟨[], by simp⟩
      | cons a l =>
          refine ⟨[], ?_⟩
          have := hhd a (by rw [ht]; rfl)
          simp only [List.nil_append, ht, List.dropWhile_cons, this]
          simp
  | cons c x ih =>
      by_cases hc : pfn c = true
      · obtain ⟨z, hz⟩ := ih
        exact ⟨z, by simpa [List.dropWhile_cons, hc] using hz⟩
      · exact ⟨c :: x, by simp [List.dropWhile_cons, hc]⟩

theorem trimStr_endsWith (t s : Str) (h : endsWith t s = true) (hne : t ≠ [])
    (hws : ∀ c ∈ t, isJsWs c = false) :
    endsWith t (trimStr s) = true := by
  obtain ⟨x, hx⟩ := endsWith_exists t s h
  subst hx
  unfold trimStr
  have hhd : ∀ hh, t.head? = some hh → isJsWs hh = false := by
    intro hh hhh
    apply hws
    cases t with
    | nil => simp at hhh
    | cons a l =>
        have ha : hh = a := (Option.some.inj hhh).symm
        rw [ha]
        exact List.mem_cons_self a l
  obtain ⟨z, hz⟩ := dropWhile_append_suffix isJsWs t hhd x
  rw [hz, List.reverse_append]
  have hrev : t.reverse.dropWhile isJsWs = t.reverse := by
    cases hrt : t.reverse with
    | nil => rfl
    | cons a l =>
        have ha : a ∈ t := by
          have : a ∈ t.reverse := by rw [hrt]; exact List.mem_cons_self a l
          simpa using this
        simp [List.dropWhile_cons, hws a ha]
  have hstep : (t.reverse ++ z.reverse).dropWhile isJsWs = t.reverse ++ z.reverse := by
    cases hrt : t.reverse with
    | nil =>
        exact absurd (by simpa using hrt) hne
    | cons a l =>
        have ha : a ∈ t := by
          have : a ∈ t.reverse := by rw [hrt]; exact List.mem_cons_self a l
          simpa using this
        simp [List.dropWhile_cons, hws a ha]
  rw [hstep, List.reverse_append, List.reverse_reverse, List.reverse_reverse]
  exact endsWith_append_self t z

theorem endsWithHonorific_trim (s : Str) (h : endsWithHonorific s = true) :
    endsWithHonorific (trimStr s) = true := by
  unfold endsWithHonorific at h ⊢
  rcases Bool.or_eq_true_iff.mp h with h1 | h2
  · rcases Bool.or_eq_true_iff.mp h1 with ha | hb
    · exact Bool.or_eq_true_iff.mpr (Or.inl (Bool.or_eq_true_iff.mpr (Or.inl
        (trimStr_endsWith _ s ha (by decide) (by decide)))))
    · exact Bool.or_eq_true_iff.mpr (Or.inl (Bool.or_eq_true_iff.mpr (Or.inr
        (trimStr_endsWith _ s hb (by decide) (by decide)))))
  · exact Bool.or_eq_true_iff.mpr (Or.inr
      (trimStr_endsWith _ s h2 (by decide) (by decide)))

theorem scanFromStart_honorific (trail : Str → Bool) (pos nm : Str)
    (h : scanFromStart trail pos = some nm) : endsWithHonorific nm = true := by
  cases pos with
  | nil => exact Option.noConfusion h
  | cons c rest => exact scanNameAux_honorific _ _ rest [c] nm h

theorem matchPattern1_honorific (line nm : Str)
    (h : matchPattern1 line = some nm) : endsWithHonorific nm = true :=
  scanNameAux_honorific _ _ line [] nm h

theorem matchPattern2_honorific (line nm : Str)
    (h : matchPattern2 line = some nm) : endsWithHonorific nm = true := by
  simp only [matchPattern2] at h
  split_ifs at h with h1 h2
  exact scanFromStart_honorific _ _ _ h

theorem matchPattern3_honorific (line nm : Str)
    (h : matchPattern3 line = some nm) : endsWithHonorific nm = true := by
  simp only [matchPattern3] at h
  cases hf : LABELS3.find? (fun lb => isPref lb line) with
  | none => rw [hf] at h; exact Option.noConfusion h
  | some lb =>
      rw [hf] at h
      simp only at h
      cases hx : (line.drop lb.length).dropWhile isJsWs with
      | nil => rw [hx] at h; exact Option.noConfusion h
      | cons c rest =>
          rw [hx] at h
          simp only at h
          split_ifs at h with hc
          exact scanFromStart_honorific _ _ _ h

theorem matchPattern4_honorific (line nm : Str)
    (h : matchPattern4 line = some nm) : endsWithHonorific nm = true := by
  simp only [matchPattern4] at h
  split_ifs at h with h1
  exact scanFromStart_honorific _ _ _ h

theorem matchPattern5_honorific (line nm : Str)
    (h : matchPattern5 line = some nm) : endsWithHonorific nm = true := by
  simp only [matchPattern5] at h
  cases line with
  | nil => exact Option.noConfusion h
  | cons c rest =>
      simp only at h
      split_ifs at h with hc
      exact scanFromStart_honorific _ _ _ h

theorem matchPattern6_honorific (line nm : Str)
    (h : matchPattern6 line = some nm) : endsWithHonorific nm = true := by
  simp only [matchPattern6] at h
  cases hd : parseDatePrefix line with
  | none =>
      rw [hd] at h
      simp only at h
      exact scanFromStart_honorific _ _ _ h
  | some n =>
      rw [hd] at h
      simp only at h
      cases hs : scanFromStart allWs ((line.drop n).dropWhile isJsWs) with
      | some nm2 =>
          rw [hs] at h
          simp only at h
          have : nm2 = nm := Option.some.inj h
          rw [← this]
          exact scanFromStart_honorific _ _ _ hs
      | none =>
          rw [hs] at h
          simp only at h
          exact scanFromStart_honorific _ _ _ h

theorem validMatches_honorific (matcher : Str → Option Str)
    (hm : ∀ line nm, matcher line = some nm → endsWithHonorific nm = true)
    (lines : List Str) :
    ∀ p ∈ validMatchesFor matcher lines, endsWithHonorific p.2 = true := by
  intro p hp
  have hp2 : p ∈ matchesFor matcher lines := (List.mem_filter.mp hp).1
  obtain ⟨a, ha, hfa⟩ := List.mem_filterMap.mp hp2
  cases hma : matcher a.2 with
  | none => rw [hma] at hfa; exact Option.noConfusion hfa
  | some nm =>
      rw [hma] at hfa
      have hpa : (a.1, nm) = p := by simpa using hfa
      have h2 : p.2 = nm := by rw [← hpa]
      rw [h2]
      exact hm a.2 nm hma

theorem foldl_pick_mem {α : Type} :
    ∀ (cands : List (List α)) (init : List α),
      (cands.foldl (fun best cur => if best.length < cur.length then cur else best) init)
        = init
      ∨ (cands.foldl (fun best cur => if best.length < cur.length then cur else best) init)
        ∈ cands := by
  intro cands
  induction cands with
  | nil => intro init; exact Or.inl rfl
  | cons c cs ih =>
      intro init
      simp only [List.foldl_cons]
      rcases ih (if init.length < c.length then c else init) with h | h
      · rw [h]
        by_cases hlen : init.length < c.length
        · rw [if_pos hlen]; exact Or.inr (List.mem_cons_self c cs)
        · rw [if_neg hlen]; exact Or.inl rfl
      · exact Or.inr (List.mem_cons_of_mem c h)

theorem bestMatchesOf_honorific (lines : List Str) :
    ∀ p ∈ bestMatchesOf lines, endsWithHonorific p.2 = true := by
  intro p hp
  unfold bestMatchesOf at hp
  rcases foldl_pick_mem (NAME_PATTERNS.map (fun m => validMatchesFor m lines)) [] with h | h
  · rw [h] at hp; cases hp
  · rw [show (NAME_PATTERNS.map (fun m => validMatchesFor m lines)).foldl
        (fun best cur => if best.length < cur.length then cur else best) [] =
        (NAME_PATTERNS.map (fun m => validMatchesFor m lines)).foldl
        (fun best cur => if best.length < cur.length then cur else best) [] from rfl] at hp
    obtain ⟨m, hmem, heq⟩ := List.mem_map.mp h
    rw [← heq] at hp
    simp only [NAME_PATTERNS, List.mem_cons, List.not_mem_nil, or_false] at hmem
    rcases hmem with rfl | rfl | rfl | rfl | rfl | rfl
    · exact validMatches_honorific _ matchPattern1_honorific lines p hp
    · exact validMatches_honorific _ matchPattern2_honorific lines p hp
    · exact validMatches_honorific _ matchPattern3_honorific lines p hp
    · exact validMatches_honorific _ matchPattern4_honorific lines p hp
    · exact validMatches_honorific _ matchPattern5_honorific lines p hp
    · exact validMatches_honorific _ matchPattern6_honorific lines p hp

theorem mset_fst_mem :
    ∀ (m : List (Str × Str)) (k v : Str) (e : Str × Str),
      e ∈ mset m k v → e.1 = k ∨ e ∈ m := by
  intro m
  induction m with
  | nil =>
      intro k v e he
      have : e = (k, v) := by simpa [mset] using he
      exact Or.inl (by rw [this])
  | cons e0 rest ih =>
      intro k v e he
      rcases e0 with ⟨k0, v0⟩
      simp only [mset] at he
      by_cases hk : k0 = k
      · rw [if_pos hk] at he
        rcases List.mem_cons.mp he with h | h
        · exact Or.inl (by rw [h])
        · exact Or.inr (List.mem_cons_of_mem _ h)
      · rw [if_neg hk] at he
        rcases List.mem_cons.mp he with h | h
        · exact Or.inr (by rw [h]; exact List.mem_cons_self _ _)
        · rcases ih k v e h with h2 | h2
          · exact Or.inl h2
          · exact Or.inr (List.mem_cons_of_mem _ h2)

theorem buildSections_honorific (lines : List Str) :
    ∀ (ms : List (Nat × Str)) (acc : List (Str × Str)),
      (∀ m ∈ ms, endsWithHonorific m.2 = true) →
      (∀ e ∈ acc, endsWithHonorific e.1 = true) →
      ∀ e ∈ buildSections lines ms acc, endsWithHonorific e.1 = true := by
  intro ms
  induction ms with
  | nil =>
      intro acc _ hacc e he
      exact hacc e (by simpa [buildSections] using he)
  | cons m rest ih =>
      intro acc hms hacc e he
      have hm : endsWithHonorific m.2 = true := hms m (List.mem_cons_self m rest)
      have hrest : ∀ x ∈ rest, endsWithHonorific x.2 = true :=
        fun x hx => hms x (List.mem_cons_of_mem m hx)
      have hname : endsWithHonorific (trimStr m.2) = true := endsWithHonorific_trim _ hm
      simp only [buildSections] at he
      split_ifs at he with h1 h2
      · exact ih acc hrest hacc e he
      · exact ih acc hrest hacc e he
      · cases hg : mget acc (trimStr m.2) with
        | some existing =>
            rw [hg] at he
            simp only at he
            refine ih _ hrest ?_ e he
            intro e2 he2
            rcases mset_fst_mem _ _ _ e2 he2 with h | h
            · rw [h]; exact hname
            · exact hacc e2 h
        | none =>
            rw [hg] at he
            simp only at he
            refine ih _ hrest ?_ e he
            intro e2 he2
            rcases mset_fst_mem _ _ _ e2 he2 with h | h
            · rw [h]; exact hname
            · exact hacc e2 h

theorem findSomeExists {α β : Type} (f : α → Option β) :
    ∀ (l : List α) (b : β), l.findSome? f = some b → ∃ a ∈ l, f a = some b := by
  intro l
  induction l with
  | nil => intro b h; simp [List.findSome?] at h
  | cons a l ih =>
      intro b h
      rw [List.findSome?_cons] at h
      cases hf : f a with
      | some b2 =>
          rw [hf] at h
          simp only at h
          exact ⟨a, List.mem_cons_self a l, by rw [hf, h]⟩
      | none =>
          rw [hf] at h
          simp only at h
          obtain ⟨a2, ha2, hfa2⟩ := ih b h
          exact ⟨a2, List.mem_cons_of_mem a ha2, hfa2⟩

theorem fallbackName_honorific (trimmed : Str) (idx : Nat) :
    endsWithHonorific
      (match ((trimmed.splitOn '\n').take 5).findSome? fallbackNameInLine with
       | some nm => nm
       | none => "未分類".toList ++ natToStr (idx + 1) ++ "さん".toList) = true := by
  cases hn : ((trimmed.splitOn '\n').take 5).findSome? fallbackNameInLine with
  | some nm =>
      simp only
      obtain ⟨l, _, hl⟩ := findSomeExists fallbackNameInLine _ nm hn
      exact scanFromStart_honorific _ _ _ hl
  | none =>
      simp only
      exact endsWithHonorific_append _ _ (by decide)

theorem buildFallback_honorific :
    ∀ (chunks : List Str) (idx : Nat) (acc : List (Str × Str)),
      (∀ e ∈ acc, endsWithHonorific e.1 = true) →
      ∀ e ∈ buildFallback chunks idx acc, endsWithHonorific e.1 = true := by
  intro chunks
  induction chunks with
  | nil =>
      intro idx acc hacc e he
      exact hacc e (by simpa [buildFallback] using he)
  | cons chunk rest ih =>
      intro idx acc hacc e he
      simp only [buildFallback] at he
      split_ifs at he with h1
      · refine ih (idx + 1) _ ?_ e he
        intro e2 he2
        rcases mset_fst_mem _ _ _ e2 he2 with h | h
        · rw [h]; exact fallbackName_honorific (trimStr chunk) idx
        · exact hacc e2 h
      · exact ih (idx + 1) acc hacc e he

theorem fallbackSplit_honorific (text : Str) :
    ∀ e ∈ fallbackSplit text, endsWithHonorific e.1 = true := by
  intro e he
  simp only [fallbackSplit] at he
  by_cases hc : 1 < (splitChunksAux [] 0 text).length ∧ (splitChunksAux [] 0 text).length ≤ 100
  · rw [if_pos hc] at he
    by_cases hz : (buildFallback (splitChunksAux [] 0 text) 0 []).length = 0
    · rw [if_pos hz] at he
      have hp : e = ("未分類さん".toList, truncateContent text) := by simpa using he
      have h1 : e.1 = "未分類さん".toList := by rw [hp]
      rw [h1]
      decide
    · rw [if_neg hz] at he
      exact buildFallback_honorific _ 0 [] (fun e2 he2 => absurd he2 (List.not_mem_nil e2)) e he
  · rw [if_neg hc] at he
    simp only [List.length_nil, if_pos rfl] at he
    have hp : e = ("未分類さん".toList, truncateContent text) := by simpa using he
    have h1 : e.1 = "未分類さん".toList := by rw [hp]
    rw [h1]
    decide

theorem splitByPerson_honorific (text : Str) :
    ∀ e ∈ splitByPerson text, e.1 ≠ [] ∧ endsWithHonorific e.1 = true := by
  intro e he
  simp only [splitByPerson] at he
  by_cases hb : 2 ≤ (bestMatchesOf (text.splitOn '\n')).length
      ∧ (bestMatchesOf (text.splitOn '\n')).length ≤ 100
  · rw [if_pos hb] at he
    by_cases hz : (buildSections (text.splitOn '\n') (bestMatchesOf (text.splitOn '\n')) []).length = 0
    · rw [if_pos hz] at he
      have := fallbackSplit_honorific text e he
      exact ⟨endsWithHonorific_ne_nil _ this, this⟩
    · rw [if_neg hz] at he
      have := buildSections_honorific (text.splitOn '\n') (bestMatchesOf (text.splitOn '\n')) []
        (fun m hm => bestMatchesOf_honorific _ m hm)
        (fun e2 he2 => absurd he2 (List.not_mem_nil e2)) e he
      exact ⟨endsWithHonorific_ne_nil _ this, this⟩
  · rw [if_neg hb] at he
    simp only [List.length_nil, if_pos rfl] at he
    have := fallbackSplit_honorific text e he
    exact ⟨endsWithHonorific_ne_nil _ this, this⟩

/-- C6: per sheet, the strategies run in the fixed order sheet-as-person,
structured columns, inline name markers, with the first one yielding any
record short-circuiting the later ones; and a workbook in which no sheet
yields any record fails with the NoRecordsFound error. -/
theorem claim_C6_strategy_order :
    (∀ (ws : Worksheet) (r : Str × Str), extractSheetAsPerson ws = some r →
      extractRecordsFromSheet ws = [r])
    ∧ (∀ ws : Worksheet, extractSheetAsPerson ws = none →
        extractStructuredRecords ws ≠ [] →
        extractRecordsFromSheet ws = extractStructuredRecords ws)
    ∧ (∀ ws : Worksheet, extractSheetAsPerson ws = none →
        extractStructuredRecords ws = [] →
        extractRecordsFromSheet ws = extractByNamePatterns ws)
    ∧ (∀ wss : List Worksheet, (∀ ws ∈ wss, extractRecordsFromSheet ws = []) →
        extractFromExcel wss = Except.error NO_RECORDS_MSG) := by
  refine ⟨?_, ?_, ?_, ?_⟩
  · intro ws r h
    unfold extractRecordsFromSheet
    rw [h]
  · intro ws h hs
    unfold extractRecordsFromSheet
    rw [h]
    simp only [if_pos hs]
  · intro ws h hs
    unfold extractRecordsFromSheet
    rw [h]
    simp only [hs, if_neg (by simp : ¬(([] : List (Str × Str)) ≠ []))]
    by_cases hp : extractByNamePatterns ws = []
    · rw [if_neg (by simpa using hp), hp]
    · rw [if_pos hp]
  · intro wss hall
    simp only [extractFromExcel]
    have hfold : wss.foldl (fun secs ws =>
        (extractRecordsFromSheet ws).foldl mergeRecordIntoSections secs) [] = [] := by
      have hgen : ∀ (l : List Worksheet) (init : List (Str × Str)),
          (∀ ws ∈ l, extractRecordsFromSheet ws = []) →
          l.foldl (fun secs ws =>
            (extractRecordsFromSheet ws).foldl mergeRecordIntoSections secs) init
            = init := by
        intro l
        induction l with
        | nil => intro init _; rfl
        | cons w l ih =>
            intro init hl
            simp only [List.foldl_cons]
            rw [hl w (List.mem_cons_self w l)]
            exact ih init (fun ws hws => hl ws (List.mem_cons_of_mem w hws))
      exact hgen wss [] hall
    rw [hfold]
    rfl

theorem claim_C6_witness :
    extractFromExcel [⟨"Sheet1".toList, [[]]⟩] = Except.error NO_RECORDS_MSG :=
  claim_C6_strategy_order.2.2.2 [⟨"Sheet1".toList, [[]]⟩] (by decide)

theorem ends6_of (h : Str) (hmem : h ∈ HONORIFICS6) (s : Str)
    (he : endsWith h s = true) : endsWithHonorific6 s = true :=
  List.any_eq_true.mpr ⟨h, hmem, he⟩

theorem ends3_to_ends6 (s : Str) (h : endsWithHonorific s = true) :
    endsWithHonorific6 s = true := by
  unfold endsWithHonorific at h
  rcases Bool.or_eq_true_iff.mp h with h1 | h2
  · rcases Bool.or_eq_true_iff.mp h1 with ha | hb
    · exact ends6_of _ (by decide) s ha
    · exact ends6_of _ (by decide) s hb
  · exact ends6_of _ (by decide) s h2

theorem ends6_ne_nil (s : Str) (h : endsWithHonorific6 s = true) : s ≠ [] := by
  intro he
  subst he
  exact absurd h (by decide)

theorem ensureHonorific_ends (x : Str) (h : ensureHonorific x ≠ []) :
    endsWithHonorific6 (ensureHonorific x) = true := by
  simp only [ensureHonorific] at h ⊢
  split_ifs at h ⊢ with h1 h2 h3 h4 h5
  · exact absurd rfl h
  · exact absurd rfl h
  · exact h3
  · exact ends6_of ("様".toList) (by decide) _ (endsWith_append_self _ _)
  · exact absurd rfl h
  · exact ends6_of ("様".toList) (by decide) _ (endsWith_append_self _ _)

theorem recAppend_fst_mem :
    ∀ (recs : List (Str × Str)) (n c : Str) (e : Str × Str),
      e ∈ recAppend recs n c → e.1 = n ∨ e.1 ∈ recs.map Prod.fst := by
  intro recs
  induction recs with
  | nil =>
      intro n c e he
      have : e = (n, c) := by simpa [recAppend] using he
      exact Or.inl (by rw [this])
  | cons e0 rest ih =>
      intro n c e he
      rcases e0 with ⟨n0, c0⟩
      simp only [recAppend] at he
      by_cases hk : n0 = n
      · rw [if_pos hk] at he
        rcases List.mem_cons.mp he with h | h
        · exact Or.inl (by rw [h]; exact hk)
        · exact Or.inr (by simp only [List.map_cons]; exact
            List.mem_cons_of_mem _ (List.mem_map_of_mem Prod.fst h))
      · rw [if_neg hk] at he
        rcases List.mem_cons.mp he with h | h
        · exact Or.inr (by rw [h]; simp)
        · rcases ih n c e h with h2 | h2
          · exact Or.inl h2
          · exact Or.inr (by simp only [List.map_cons]; exact List.mem_cons_of_mem _ h2)

theorem structuredRow_names (nameCol : Nat) (contentCols : List Nat)
    (records : List (Str × Str)) (row : List Str)
    (hrec : ∀ e ∈ records, e.1 ≠ [] ∧ endsWithHonorific6 e.1 = true) :
    ∀ e ∈ structuredRow nameCol contentCols records row,
      e.1 ≠ [] ∧ endsWithHonorific6 e.1 = true := by
  intro e he
  simp only [structuredRow] at he
  split_ifs at he with h1 h2
  · exact hrec e he
  · rcases recAppend_fst_mem _ _ _ e he with h | h
    · rw [h]
      exact ⟨h2.1, ensureHonorific_ends _ h2.1⟩
    · obtain ⟨e2, he2, heq⟩ := List.mem_map.mp h
      rw [← heq]
      exact hrec e2 he2
  · exact hrec e he

theorem structuredFold_names (nameCol : Nat) (contentCols : List Nat) :
    ∀ (rows : List (List Str)) (records : List (Str × Str)),
      (∀ e ∈ records, e.1 ≠ [] ∧ endsWithHonorific6 e.1 = true) →
      ∀ e ∈ rows.foldl (structuredRow nameCol contentCols) records,
        e.1 ≠ [] ∧ endsWithHonorific6 e.1 = true := by
  intro rows
  induction rows with
  | nil => intro records hrec e he; exact hrec e he
  | cons row rest ih =>
      intro records hrec e he
      simp only [List.foldl_cons] at he
      exact ih _ (structuredRow_names nameCol contentCols records row hrec) e he

theorem extractStructuredRecords_names (ws : Worksheet) :
    ∀ e ∈ extractStructuredRecords ws, e.1 ≠ [] ∧ endsWithHonorific6 e.1 = true := by
  intro e he
  simp only [extractStructuredRecords] at he
  cases hn : (scanHeadersAux (ws.rows.take 5) none []).1 with
  | none => rw [hn] at he; cases he
  | some nameCol =>
      rw [hn] at he
      simp only at he
      split_ifs at he
      all_goals first
        | cases he
        | exact structuredFold_names _ _ _ []
            (fun e2 he2 => absurd he2 (List.not_mem_nil e2)) e he

theorem rowHonorificName_prop (rowText nm : Str)
    (h : rowHonorificName rowText = some nm) :
    nm ≠ [] ∧ endsWithHonorific6 nm = true := by
  simp only [rowHonorificName] at h
  cases ht : (rowText.drop (rowText.takeWhile inNC).length).head? with
  | none => rw [ht] at h; exact Option.noConfusion h
  | some t =>
      rw [ht] at h
      simp only at h
      split_ifs at h with h1 h2 h3 h4
      · have hnm : rowText.takeWhile inNC = nm := Option.some.inj h
        subst hnm
        rcases h2.2 with ha | ha | ha | ha
        · exact ⟨ends6_ne_nil _ (ends6_of _ (by decide) _ ha),
            ends6_of _ (by decide) _ ha⟩
        · exact ⟨ends6_ne_nil _ (ends6_of _ (by decide) _ ha),
            ends6_of _ (by decide) _ ha⟩
        · exact ⟨ends6_ne_nil _ (ends6_of _ (by decide) _ ha),
            ends6_of _ (by decide) _ ha⟩
        · exact ⟨ends6_ne_nil _ (ends6_of _ (by decide) _ ha),
            ends6_of _ (by decide) _ ha⟩
      · have hnm : rowText.takeWhile inNC = nm := Option.some.inj h
        subst hnm
        exact ⟨ends6_ne_nil _ (ends6_of _ (by decide) _ h3.2),
          ends6_of _ (by decide) _ h3.2⟩
      · have hnm : rowText.takeWhile inNC = nm := Option.some.inj h
        subst hnm
        exact ⟨ends6_ne_nil _ (ends6_of _ (by decide) _ h4.2),
          ends6_of _ (by decide) _ h4.2⟩

theorem bracketDetect_prop (rowText : Str) (nd : Str × Str)
    (h : bracketDetect rowText = some nd) :
    nd.1 ≠ [] ∧ endsWithHonorific6 nd.1 = true := by
  simp only [bracketDetect] at h
  cases hb : bracketNameMatch rowText with
  | none => rw [hb] at h; exact Option.noConfusion h
  | some r =>
      rw [hb] at h
      simp only at h
      split_ifs at h with hf
      · have : (ensureHonorific r.1, trimStr (rowText.drop r.2)) = nd :=
          Option.some.inj h
        rw [← this]
        exact ⟨hf, ensureHonorific_ends _ hf⟩

theorem rowNameDetect_prop (rowText : Str) (nd : Str × Str)
    (h : rowNameDetect rowText = some nd) :
    nd.1 ≠ [] ∧ endsWithHonorific6 nd.1 = true := by
  simp only [rowNameDetect] at h
  cases hh : rowHonorificName rowText with
  | some nm =>
      rw [hh] at h
      simp only at h
      have : (nm, trimStr (rowText.drop (nm.length + 1))) = nd := Option.some.inj h
      rw [← this]
      exact rowHonorificName_prop rowText nm hh
  | none =>
      rw [hh] at h
      simp only at h
      cases hl : labeledNameMatch rowText with
      | some r =>
          rw [hl] at h
          simp only at h
          split_ifs at h with hf
          · have : (ensureHonorific r.1, trimStr (rowText.drop r.2)) = nd :=
              Option.some.inj h
            rw [← this]
            exact ⟨hf, ensureHonorific_ends _ hf⟩
          · exact bracketDetect_prop rowText nd h
      | none =>
          rw [hl] at h
          simp only at h
          exact bracketDetect_prop rowText nd h

theorem flushPerson_names (cur : Option Str) (curContent : List Str)
    (recs : List (Str × Str))
    (hcur : ∀ p, cur = some p → p ≠ [] ∧ endsWithHonorific6 p = true)
    (hrec : ∀ e ∈ recs, e.1 ≠ [] ∧ endsWithHonorific6 e.1 = true) :
    ∀ e ∈ flushPerson cur curContent recs,
      e.1 ≠ [] ∧ endsWithHonorific6 e.1 = true := by
  intro e he
  cases cur with
  | none => exact hrec e (by simpa [flushPerson] using he)
  | some p =>
      simp only [flushPerson] at he
      split_ifs at he with h1 h2
      · rcases List.mem_append.mp he with h | h
        · exact hrec e h
        · have : e = (p, trimStr (List.intercalate ['\n'] curContent)) := by simpa using h
          have hp := hcur p rfl
          rw [this]
          exact hp
      · exact hrec e he
      · exact hrec e he

theorem patternLoop_names :
    ∀ (rows : List (List Str)) (cur : Option Str) (curContent : List Str)
      (recs : List (Str × Str)),
      (∀ p, cur = some p → p ≠ [] ∧ endsWithHonorific6 p = true) →
      (∀ e ∈ recs, e.1 ≠ [] ∧ endsWithHonorific6 e.1 = true) →
      ∀ e ∈ patternLoop rows cur curContent recs,
        e.1 ≠ [] ∧ endsWithHonorific6 e.1 = true := by
  intro rows
  induction rows with
  | nil =>
      intro cur curContent recs hcur hrec e he
      exact flushPerson_names cur curContent recs hcur hrec e
        (by simpa [patternLoop] using he)
  | cons row rest ih =>
      intro cur curContent recs hcur hrec e he
      simp only [patternLoop] at he
      split_ifs at he with h1
      · exact ih cur curContent recs hcur hrec e he
      · cases hd : rowNameDetect (mkRowText row) with
        | some nd =>
            rw [hd] at he
            simp only at he
            exact ih _ _ _
              (fun p hp => by
                have : nd.1 = p := Option.some.inj hp
                rw [← this]
                exact rowNameDetect_prop _ nd hd)
              (flushPerson_names cur curContent recs hcur hrec) e he
        | none =>
            rw [hd] at he
            simp only at he
            cases cur with
            | some p => exact ih _ _ _ hcur hrec e he
            | none => exact ih _ _ _ hcur hrec e he

theorem extractByNamePatterns_names (ws : Worksheet) :
    ∀ e ∈ extractByNamePatterns ws, e.1 ≠ [] ∧ endsWithHonorific6 e.1 = true := by
  intro e he
  exact patternLoop_names ws.rows none [] []
    (fun p hp => Option.noConfusion hp)
    (fun e2 he2 => absurd he2 (List.not_mem_nil e2)) e he

theorem extractSheetAsPerson_names (ws : Worksheet) (r : Str × Str)
    (h : extractSheetAsPerson ws = some r) :
    r.1 ≠ [] ∧ endsWithHonorific6 r.1 = true := by
  simp only [extractSheetAsPerson] at h
  by_cases hok : (isLikelyPersonName ws.name
      || (findPersonInRows (ws.rows.take 5)).isSome) = true
  · rw [if_pos hok] at h
    by_cases hname : ensureHonorific ws.name = []
    · rw [if_pos hname] at h
      exact Option.noConfusion h
    · rw [if_neg hname] at h
      split_ifs at h with hlen
      · have heq := Option.some.inj h
        rw [← heq]
        exact ⟨hname, ensureHonorific_ends _ hname⟩
  · rw [if_neg hok] at h
    exact Option.noConfusion h

theorem extractRecordsFromSheet_names (ws : Worksheet) :
    ∀ e ∈ extractRecordsFromSheet ws,
      e.1 ≠ [] ∧ endsWithHonorific6 e.1 = true := by
  intro e he
  simp only [extractRecordsFromSheet] at he
  cases hs : extractSheetAsPerson ws with
  | some r =>
      rw [hs] at he
      simp only at he
      have : e = r := by simpa using he
      rw [this]
      exact extractSheetAsPerson_names ws r hs
  | none =>
      rw [hs] at he
      simp only at he
      split_ifs at he with h1 h2
      · exact extractStructuredRecords_names ws e he
      · exact extractByNamePatterns_names ws e he
      · cases he

theorem mergeRecord_names (sections : List (Str × Str)) (r : Str × Str)
    (hr : r.1 ≠ [] ∧ endsWithHonorific6 r.1 = true)
    (hsec : ∀ e ∈ sections, e.1 ≠ [] ∧ endsWithHonorific6 e.1 = true) :
    ∀ e ∈ mergeRecordIntoSections sections r,
      e.1 ≠ [] ∧ endsWithHonorific6 e.1 = true := by
  intro e he
  simp only [mergeRecordIntoSections] at he
  split_ifs at he with h1
  · cases hg : mget sections r.1 with
    | some existing =>
        rw [hg] at he
        simp only at he
        rcases mset_fst_mem _ _ _ e he with h | h
        · rw [h]; exact hr
        · exact hsec e h
    | none =>
        rw [hg] at he
        simp only at he
        rcases mset_fst_mem _ _ _ e he with h | h
        · rw [h]; exact hr
        · exact hsec e h
  · exact hsec e he

theorem extractFromExcel_names (wss : List Worksheet)
    (sections : List (Str × Str))
    (h : extractFromExcel wss = Except.ok sections) :
    ∀ e ∈ sections, e.1 ≠ [] ∧ endsWithHonorific6 e.1 = true := by
  have hfold : ∀ (l : List Worksheet) (init : List (Str × Str)),
      (∀ e ∈ init, e.1 ≠ [] ∧ endsWithHonorific6 e.1 = true) →
      ∀ e ∈ l.foldl (fun secs ws =>
          (extractRecordsFromSheet ws).foldl mergeRecordIntoSections secs) init,
        e.1 ≠ [] ∧ endsWithHonorific6 e.1 = true := by
    intro l
    induction l with
    | nil => intro init hinit e he; exact hinit e he
    | cons w l ih =>
        intro init hinit e he
        simp only [List.foldl_cons] at he
        refine ih _ ?_ e he
        have hinner : ∀ (rs : List (Str × Str)) (secs : List (Str × Str)),
            (∀ x ∈ rs, x.1 ≠ [] ∧ endsWithHonorific6 x.1 = true) →
            (∀ x ∈ secs, x.1 ≠ [] ∧ endsWithHonorific6 x.1 = true) →
            ∀ x ∈ rs.foldl mergeRecordIntoSections secs,
              x.1 ≠ [] ∧ endsWithHonorific6 x.1 = true := by
          intro rs
          induction rs with
          | nil => intro secs _ hsecs x hx; exact hsecs x hx
          | cons rr rs ihr =>
              intro secs hrs hsecs x hx
              simp only [List.foldl_cons] at hx
              exact ihr _ (fun y hy => hrs y (List.mem_cons_of_mem rr hy))
                (mergeRecord_names secs rr (hrs rr (List.mem_cons_self rr rs)) hsecs) x hx
        exact hinner _ init (fun x hx => extractRecordsFromSheet_names w x hx) hinit
  simp only [extractFromExcel] at h
  split_ifs at h
  all_goals first
    | exact Except.noConfusion h
    | (rw [(Except.ok.inj h).symm]
       exact hfold wss [] (fun e2 he2 => absurd he2 (List.not_mem_nil e2)))

/-- C4 counterexample: the same two files — both containing the individual
A様, with filenames whose inferred dates are equal — aggregated in the two
possible orders produce different combined content strings: the comparator
returns 0 on equal dates and the stable sort keeps the presentation order. -/
theorem claim_C4_counterexample :
    mergedCombinedFor 2024
      [("2024-1-15a.xlsx".toList,
        [⟨"A様".toList, [["good appetite, slept well".toList]]⟩]),
       ("2024/1/15b.xlsx".toList,
        [⟨"A様".toList, [["mild cough, otherwise stable".toList]]⟩])]
      "A様".toList
    ≠ mergedCombinedFor 2024
      [("2024/1/15b.xlsx".toList,
        [⟨"A様".toList, [["mild cough, otherwise stable".toList]]⟩]),
       ("2024-1-15a.xlsx".toList,
        [⟨"A様".toList, [["good appetite, slept well".toList]]⟩])]
      "A様".toList := by
  decide

theorem strCmp_eq_iff : ∀ a b : Str, strCmp a b = Ordering.eq ↔ a = b := by
  intro a
  induction a with
  | nil => intro b; cases b <;> simp [strCmp]
  | cons a0 as ih =>
      intro b
      cases b with
      | nil => simp [strCmp]
      | cons b0 bs =>
          simp only [strCmp]
          by_cases h1 : a0 < b0
          · rw [if_pos h1]
            simp only [List.cons.injEq]
            constructor
            · intro hc; exact absurd hc (by decide)
            · rintro ⟨he, _⟩; exact absurd h1 (by rw [he]; exact lt_irrefl b0)
          · rw [if_neg h1]
            by_cases h2 : b0 < a0
            · rw [if_pos h2]
              simp only [List.cons.injEq]
              constructor
              · intro hc; exact absurd hc (by decide)
              · rintro ⟨he, _⟩; exact absurd h2 (by rw [he]; exact lt_irrefl b0)
            · rw [if_neg h2]
              have hab : a0 = b0 := le_antisymm (not_lt.mp h2) (not_lt.mp h1)
              simp [hab, ih bs]

theorem strCmp_lt_gt : ∀ a b : Str,
    strCmp a b = Ordering.lt ↔ strCmp b a = Ordering.gt := by
  intro a
  induction a with
  | nil => intro b; cases b <;> simp [strCmp]
  | cons a0 as ih =>
      intro b
      cases b with
      | nil => simp [strCmp]
      | cons b0 bs =>
          simp only [strCmp]
          by_cases h1 : a0 < b0
          · have h2 : ¬b0 < a0 := lt_asymm h1
            rw [if_pos h1, if_neg h2, if_pos h1]
            simp
          · rw [if_neg h1]
            by_cases h2 : b0 < a0
            · rw [if_pos h2, if_pos h2]
              simp
            · rw [if_neg h2, if_neg h2, if_neg h1]
              exact ih bs

theorem strCmp_lt_trans : ∀ a b c : Str, strCmp a b = Ordering.lt →
    strCmp b c = Ordering.lt → strCmp a c = Ordering.lt := by
  intro a
  induction a with
  | nil =>
      intro b c hab hbc
      cases c with
      | nil =>
          cases b with
          | nil => exact absurd hab (by simp [strCmp])
          | cons b0 bs => exact absurd hbc (by simp [strCmp])
      | cons c0 cs => simp [strCmp]
  | cons a0 as ih =>
      intro b c hab hbc
      cases b with
      | nil => exact absurd hab (by simp [strCmp])
      | cons b0 bs =>
          cases c with
          | nil => exact absurd hbc (by simp [strCmp])
          | cons c0 cs =>
              simp only [strCmp] at hab hbc ⊢
              by_cases h1 : a0 < b0
              · by_cases h2 : b0 < c0
                · rw [if_pos (lt_trans h1 h2)]
                · by_cases h3 : c0 < b0
                  · rw [if_neg h2, if_pos h3] at hbc
                    exact absurd hbc (by decide)
                  · have he : b0 = c0 := le_antisymm (not_lt.mp h3) (not_lt.mp h2)
                    rw [if_pos (he ▸ h1)]
              · by_cases h1b : b0 < a0
                · rw [if_neg h1, if_pos h1b] at hab
                  exact absurd hab (by decide)
                · have he : a0 = b0 := le_antisymm (not_lt.mp h1b) (not_lt.mp h1)
                  rw [if_neg h1, if_neg h1b] at hab
                  by_cases h2 : b0 < c0
                  · rw [if_pos (he ▸ h2)]
                  · by_cases h3 : c0 < b0
                    · rw [if_neg h2, if_pos h3] at hbc
                      exact absurd hbc (by decide)
                    · have he2 : b0 = c0 := le_antisymm (not_lt.mp h3) (not_lt.mp h2)
                      rw [if_neg h2, if_neg h3] at hbc
                      have hn1 : ¬a0 < c0 := by
                        rw [he, he2]; exact lt_irrefl c0
                      have hn2 : ¬c0 < a0 := by
                        rw [he, he2]; exact lt_irrefl c0
                      rw [if_neg hn1, if_neg hn2]
                      exact ih bs cs hab hbc

theorem insertCmp_perm (cmp : α → α → Ordering) (x : α) :
    ∀ l : List α, (insertCmp cmp x l).Perm (x :: l) := by
  intro l
  induction l with
  | nil => exact List.Perm.refl _
  | cons y ys ih =>
      simp only [insertCmp]
      cases cmp x y with
      | lt => exact List.Perm.refl _
      | eq =>
          exact List.Perm.trans (List.Perm.cons y ih) (List.Perm.swap x y ys)
      | gt =>
          exact List.Perm.trans (List.Perm.cons y ih) (List.Perm.swap x y ys)

theorem sortCmp_perm (cmp : α → α → Ordering) (l : List α) :
    (sortCmp cmp l).Perm l := by
  have hgen : ∀ (t acc : List α),
      (t.foldl (fun acc x => insertCmp cmp x acc) acc).Perm (acc ++ t) := by
    intro t
    induction t with
    | nil => intro acc; simp
    | cons x ts ih =>
        intro acc
        simp only [List.foldl_cons]
        refine List.Perm.trans (ih (insertCmp cmp x acc)) ?_
        refine List.Perm.trans (List.Perm.append_right ts (insertCmp_perm cmp x acc)) ?_
        exact List.perm_middle.symm
  simpa using hgen l []

theorem insertCmp_mem (cmp : α → α → Ordering) (x : α) (l : List α) :
    ∀ z ∈ insertCmp cmp x l, z = x ∨ z ∈ l := by
  intro z hz
  have := (insertCmp_perm cmp x l).subset hz
  exact List.mem_cons.mp this

theorem insertCmp_pairwise (cmp : α → α → Ordering) (P : α → Prop)
    (hswap : ∀ a b, P a → P b → cmp a b = Ordering.lt → cmp b a ≠ Ordering.lt)
    (htrans : ∀ a b c, P a → P b → P c → cmp a b = Ordering.lt →
      cmp c b ≠ Ordering.lt → cmp c a ≠ Ordering.lt) :
    ∀ (l : List α) (x : α), P x → (∀ y ∈ l, P y) →
      l.Pairwise (fun a b => cmp b a ≠ Ordering.lt) →
      (insertCmp cmp x l).Pairwise (fun a b => cmp b a ≠ Ordering.lt) := by
  intro l
  induction l with
  | nil => intro x _ _ _; simp [insertCmp]
  | cons y ys ih =>
      intro x hx hl hp
      rcases List.pairwise_cons.mp hp with ⟨hy, hys⟩
      simp only [insertCmp]
      cases hc : cmp x y with
      | lt =>
          refine List.pairwise_cons.mpr ⟨?_, hp⟩
          intro z hz
          rcases List.mem_cons.mp hz with rfl | hz2
          · exact hswap x z hx (hl z (List.mem_cons_self z ys)) hc
          · exact htrans x y z hx (hl y (List.mem_cons_self y ys))
              (hl z (List.mem_cons_of_mem y hz2)) hc (hy z hz2)
      | eq =>
          refine List.pairwise_cons.mpr
            ⟨?_, ih x hx (fun y2 hy2 => hl y2 (List.mem_cons_of_mem y hy2)) hys⟩
          intro z hz
          rcases insertCmp_mem cmp x ys z hz with rfl | hz2
          · rw [hc]; exact fun hcon => Ordering.noConfusion hcon
          · exact hy z hz2
      | gt =>
          refine List.pairwise_cons.mpr
            ⟨?_, ih x hx (fun y2 hy2 => hl y2 (List.mem_cons_of_mem y hy2)) hys⟩
          intro z hz
          rcases insertCmp_mem cmp x ys z hz with rfl | hz2
          · rw [hc]; exact fun hcon => Ordering.noConfusion hcon
          · exact hy z hz2

theorem sortCmp_pairwise (cmp : α → α → Ordering) (P : α → Prop)
    (hswap : ∀ a b, P a → P b → cmp a b = Ordering.lt → cmp b a ≠ Ordering.lt)
    (htrans : ∀ a b c, P a → P b → P c → cmp a b = Ordering.lt →
      cmp c b ≠ Ordering.lt → cmp c a ≠ Ordering.lt)
    (l : List α) (hl : ∀ y ∈ l, P y) :
    (sortCmp cmp l).Pairwise (fun a b => cmp b a ≠ Ordering.lt) := by
  have hgen : ∀ (t acc : List α), (∀ y ∈ t, P y) → (∀ y ∈ acc, P y) →
      acc.Pairwise (fun a b => cmp b a ≠ Ordering.lt) →
      (t.foldl (fun acc x => insertCmp cmp x acc) acc).Pairwise
        (fun a b => cmp b a ≠ Ordering.lt) := by
    intro t
    induction t with
    | nil => intro acc _ _ hacc; exact hacc
    | cons x ts ih =>
        intro acc ht hacc hpacc
        simp only [List.foldl_cons]
        refine ih (insertCmp cmp x acc)
          (fun y hy => ht y (List.mem_cons_of_mem x hy)) ?_ ?_
        · intro y hy
          rcases insertCmp_mem cmp x acc y hy with rfl | hy2
          · exact ht y (List.mem_cons_self y ts)
          · exact hacc y hy2
        · exact insertCmp_pairwise cmp P hswap htrans acc x
            (ht x (List.mem_cons_self x ts)) hacc hpacc
  exact hgen l [] hl (fun y hy => absurd hy (List.not_mem_nil y)) List.Pairwise.nil

theorem sorted_perm_unique (R : α → α → Prop) :
    ∀ (l1 l2 : List α), l1.Perm l2 → l1.Pairwise R → l2.Pairwise R →
      (∀ x ∈ l1, ∀ y ∈ l1, R x y → R y x → x = y) → l1 = l2 := by
  intro l1
  induction l1 with
  | nil =>
      intro l2 _ _ _ _
      next hp _ _ _ => exact (hp.symm.eq_nil).symm
  | cons a t1 ih =>
      intro l2 hp h1 h2 hanti
      cases l2 with
      | nil => exact absurd hp.eq_nil (by simp)
      | cons b t2 =>
          have hab : a = b := by
            by_contra hne
            have ha2 : a ∈ b :: t2 := hp.subset (List.mem_cons_self a t1)
            have hb1 : b ∈ a :: t1 := hp.symm.subset (List.mem_cons_self b t2)
            have ha2' : a ∈ t2 := by
              rcases List.mem_cons.mp ha2 with h | h
              · exact absurd h hne
              · exact h
            have hb1' : b ∈ t1 := by
              rcases List.mem_cons.mp hb1 with h | h
              · exact absurd h.symm hne
              · exact h
            have hRab : R a b := (List.pairwise_cons.mp h1).1 b hb1'
            have hRba : R b a := (List.pairwise_cons.mp h2).1 a ha2'
            exact hne (hanti a (List.mem_cons_self a t1) b
              (List.mem_cons_of_mem a hb1') hRab hRba)
          subst hab
          have hpt : t1.Perm t2 := hp.cons_inv
          rw [ih t2 hpt (List.pairwise_cons.mp h1).2 (List.pairwise_cons.mp h2).2
            (fun x hx y hy => hanti x (List.mem_cons_of_mem a hx) y
              (List.mem_cons_of_mem a hy))]

theorem sortCmp_eq_of_perm (cmp : α → α → Ordering) (P : α → Prop)
    (hswap : ∀ a b, P a → P b → cmp a b = Ordering.lt → cmp b a ≠ Ordering.lt)
    (htrans : ∀ a b c, P a → P b → P c → cmp a b = Ordering.lt →
      cmp c b ≠ Ordering.lt → cmp c a ≠ Ordering.lt)
    (hanti : ∀ a b, P a → P b → cmp a b ≠ Ordering.lt →
      cmp b a ≠ Ordering.lt → a = b)
    (l1 l2 : List α) (hp : l1.Perm l2) (hl : ∀ x ∈ l1, P x) :
    sortCmp cmp l1 = sortCmp cmp l2 := by
  have hl2 : ∀ x ∈ l2, P x := fun x hx => hl x (hp.symm.subset hx)
  have hperm : (sortCmp cmp l1).Perm (sortCmp cmp l2) :=
    ((sortCmp_perm cmp l1).trans hp).trans (sortCmp_perm cmp l2).symm
  refine sorted_perm_unique _ _ _ hperm
    (sortCmp_pairwise cmp P hswap htrans l1 hl)
    (sortCmp_pairwise cmp P hswap htrans l2 hl2) ?_
  intro x hx y hy hxy hyx
  have hx1 : x ∈ l1 := (sortCmp_perm cmp l1).subset hx
  have hy1 : y ∈ l1 := (sortCmp_perm cmp l1).subset hy
  exact hanti x y (hl x hx1) (hl y hy1) hyx hxy

theorem lookupGroup_cons (a : Str) (b : List PersonData)
    (rest : List (Str × List PersonData)) (name : Str) :
    lookupGroup ((a, b) :: rest) name =
      if a = name then b else lookupGroup rest name := by
  by_cases h : a = name
  · simp [lookupGroup, List.find?, h]
  · simp [lookupGroup, List.find?, h]

theorem gpush_lookup (it : PersonData) (name : Str) :
    ∀ m : List (Str × List PersonData),
      lookupGroup (gpush m it) name =
        if it.name = name then lookupGroup m name ++ [it]
        else lookupGroup m name := by
  intro m
  induction m with
  | nil =>
      by_cases h : it.name = name
      · simp [gpush, lookupGroup, List.find?, h]
      · simp [gpush, lookupGroup, List.find?, h]
  | cons g rest ih =>
      rcases g with ⟨n, items⟩
      simp only [gpush]
      by_cases h1 : n = it.name
      · rw [if_pos h1, lookupGroup_cons, lookupGroup_cons]
        by_cases h2 : n = name
        · rw [if_pos h2, if_pos h2, if_pos (h1 ▸ h2)]
        · rw [if_neg h2, if_neg h2]
          rw [if_neg (h1 ▸ h2)]
      · rw [if_neg h1, lookupGroup_cons, lookupGroup_cons]
        by_cases h2 : n = name
        · rw [if_pos h2, if_pos h2]
          have : ¬ it.name = name := fun hc => h1 (h2.trans hc.symm)
          rw [if_neg this]
        · rw [if_neg h2, if_neg h2, ih]

theorem foldl_gpush_lookup :
    ∀ (data : List PersonData) (acc : List (Str × List PersonData)) (name : Str),
      lookupGroup (data.foldl gpush acc) name =
        lookupGroup acc name ++ data.filter (fun it => decide (it.name = name)) := by
  intro data
  induction data with
  | nil => intro acc name; simp
  | cons it data ih =>
      intro acc name
      simp only [List.foldl_cons, List.filter_cons]
      rw [ih (gpush acc it) name, gpush_lookup]
      by_cases h : it.name = name
      · rw [if_pos h]
        simp [h, List.append_assoc]
      · rw [if_neg h]
        simp [h]

theorem groupByPerson_lookup (data : List PersonData) (name : Str) :
    (match (groupByPerson data).find? (fun g => g.1 = name) with
     | some g => g.2
     | none => []) =
      sortCmp pdCmp (data.filter (fun it => decide (it.name = name))) := by
  unfold groupByPerson
  have hfind : ∀ (m : List (Str × List PersonData)),
      (match (m.map (fun g => (g.1, sortCmp pdCmp g.2))).find?
          (fun g => g.1 = name) with
       | some g => g.2
       | none => []) = sortCmp pdCmp (lookupGroup m name) := by
    intro m
    induction m with
    | nil => rfl
    | cons g rest ih =>
        rcases g with ⟨a, b⟩
        by_cases h : a = name
        · simp [List.find?, lookupGroup_cons, h]
        · simp only [List.map_cons]
          rw [lookupGroup_cons, if_neg h]
          simpa [List.find?, h] using ih
  rw [hfind, foldl_gpush_lookup data [] name]
  rfl

theorem mergedCombinedFor_char (cy : Nat) (files : List MergeFile) (name : Str) :
    mergedCombinedFor cy files name =
      combinedContentOf (sortCmp pdCmp
        ((collectPersonData cy files).filter (fun it => decide (it.name = name)))) := by
  unfold mergedCombinedFor
  rw [← groupByPerson_lookup]
  cases (groupByPerson (collectPersonData cy files)).find? (fun g => g.1 = name) with
  | some g => rfl
  | none => rfl

theorem collect_flatMap (cy : Nat) :
    ∀ (files : List MergeFile) (acc : List PersonData),
      files.foldl (fun acc f => acc ++ fileBlock cy f) acc =
        acc ++ files.flatMap (fileBlock cy) := by
  intro files
  induction files with
  | nil => intro acc; simp
  | cons f fs ih =>
      intro acc
      simp only [List.foldl_cons, List.flatMap_cons]
      rw [ih (acc ++ fileBlock cy f), List.append_assoc]

theorem collectPersonData_eq (cy : Nat) (files : List MergeFile) :
    collectPersonData cy files = files.flatMap (fileBlock cy) := by
  unfold collectPersonData
  simpa using collect_flatMap cy files []

theorem mset_keys_nodup :
    ∀ (m : List (Str × Str)) (k v : Str),
      (m.map Prod.fst).Nodup → ((mset m k v).map Prod.fst).Nodup := by
  intro m
  induction m with
  | nil => intro k v _; simp [mset]
  | cons e rest ih =>
      intro k v hnd
      rcases e with ⟨k0, v0⟩
      simp only [mset]
      by_cases h : k0 = k
      · rw [if_pos h]
        simp only [List.map_cons, List.nodup_cons] at hnd ⊢
        exact ⟨h ▸ hnd.1, hnd.2⟩
      · rw [if_neg h]
        simp only [List.map_cons, List.nodup_cons] at hnd ⊢
        refine ⟨?_, ih k v hnd.2⟩
        intro hc
        obtain ⟨e2, he2, heq⟩ := List.mem_map.mp hc
        rcases mset_fst_mem rest k v e2 he2 with h2 | h2
        · exact h (heq ▸ h2)
        · exact hnd.1 (heq ▸ List.mem_map_of_mem Prod.fst h2)

theorem mergeRecord_keys_nodup (sections : List (Str × Str)) (r : Str × Str)
    (hnd : (sections.map Prod.fst).Nodup) :
    ((mergeRecordIntoSections sections r).map Prod.fst).Nodup := by
  simp only [mergeRecordIntoSections]
  split_ifs with h1
  · cases mget sections r.1 with
    | some existing => exact mset_keys_nodup sections r.1 _ hnd
    | none => exact mset_keys_nodup sections r.1 _ hnd
  · exact hnd

theorem extractFromExcel_keys_nodup (wss : List Worksheet)
    (sections : List (Str × Str))
    (h : extractFromExcel wss = Except.ok sections) :
    (sections.map Prod.fst).Nodup := by
  have hfold : ∀ (l : List Worksheet) (init : List (Str × Str)),
      (init.map Prod.fst).Nodup →
      ((l.foldl (fun secs ws =>
          (extractRecordsFromSheet ws).foldl mergeRecordIntoSections secs)
          init).map Prod.fst).Nodup := by
    intro l
    induction l with
    | nil => intro init hinit; exact hinit
    | cons w l ih =>
        intro init hinit
        simp only [List.foldl_cons]
        refine ih _ ?_
        have hinner : ∀ (rs : List (Str × Str)) (secs : List (Str × Str)),
            (secs.map Prod.fst).Nodup →
            ((rs.foldl mergeRecordIntoSections secs).map Prod.fst).Nodup := by
          intro rs
          induction rs with
          | nil => intro secs hs; exact hs
          | cons rr rs ihr =>
              intro secs hs
              simp only [List.foldl_cons]
              exact ihr _ (mergeRecord_keys_nodup secs rr hs)
        exact hinner _ init hinit
  simp only [extractFromExcel] at h
  split_ifs at h
  all_goals first
    | exact Except.noConfusion h
    | (rw [(Except.ok.inj h).symm]
       exact hfold wss [] (by simp))

theorem nodupkeys_filter_len_le_one (n : Str) :
    ∀ l : List (Str × Str), (l.map Prod.fst).Nodup →
      (l.filter (fun p => decide (p.1 = n))).length ≤ 1 := by
  intro l
  induction l with
  | nil => intro _; simp
  | cons e rest ih =>
      intro hnd
      rcases e with ⟨k, v⟩
      simp only [List.map_cons, List.nodup_cons] at hnd
      by_cases h : k = n
      · have hrest : rest.filter (fun p => decide (p.1 = n)) = [] := by
          rw [List.filter_eq_nil_iff]
          intro a ha hpa
          apply hnd.1
          have : a.1 = n := of_decide_eq_true hpa
          rw [← h] at this
          exact this ▸ List.mem_map_of_mem Prod.fst ha
        simp [List.filter_cons, h, hrest]
      · simp only [List.filter_cons]
        rw [decide_eq_false (by simpa using h)]
        simpa using ih hnd.2

theorem fileBlock_date (cy : Nat) (f : MergeFile) (it : PersonData)
    (hit : it ∈ fileBlock cy f) :
    it.date = extractDateFromFileName cy f.1 ∧ it.sourceFile = f.1 := by
  simp only [fileBlock] at hit
  cases hx : extractFromExcel f.2 with
  | error e => rw [hx] at hit; cases hit
  | ok sections =>
      rw [hx] at hit
      simp only at hit
      obtain ⟨p, _, heq⟩ := List.mem_map.mp hit
      rw [← heq]
      exact ⟨rfl, rfl⟩

theorem fileBlock_filter_len (cy : Nat) (f : MergeFile) (name : Str) :
    ((fileBlock cy f).filter (fun it => decide (it.name = name))).length ≤ 1 := by
  simp only [fileBlock]
  cases hx : extractFromExcel f.2 with
  | error e => simp
  | ok sections =>
      simp only
      rw [List.filter_map]
      rw [List.length_map]
      have hcomp : ((fun it : PersonData => decide (it.name = name)) ∘
          (fun p : Str × Str =>
            (⟨p.1, p.2, f.1, extractDateFromFileName cy f.1⟩ : PersonData))) =
          (fun p : Str × Str => decide (p.1 = name)) := by
        funext p
        rfl
      rw [hcomp]
      exact nodupkeys_filter_len_le_one name sections
        (extractFromExcel_keys_nodup f.2 sections hx)

theorem pairwise_of_length_le_one (R : α → α → Prop) (l : List α)
    (h : l.length ≤ 1) : l.Pairwise R := by
  cases l with
  | nil => exact List.Pairwise.nil
  | cons a t =>
      cases t with
      | nil => simp
      | cons b t2 => simp at h

theorem group_dates_mem (cy : Nat) :
    ∀ (files : List MergeFile) (it : PersonData),
      it ∈ files.flatMap (fileBlock cy) →
      it.date ∈ files.map (fun f => extractDateFromFileName cy f.1) := by
  intro files it hit
  obtain ⟨f, hf, hinf⟩ := List.mem_flatMap.mp hit
  have := (fileBlock_date cy f it hinf).1
  rw [this]
  exact List.mem_map_of_mem _ hf

theorem group_dates_pairwise (cy : Nat) :
    ∀ (files : List MergeFile) (name : Str),
      ((files.map (fun f => extractDateFromFileName cy f.1)).Nodup) →
      ((files.flatMap (fileBlock cy)).filter
        (fun it => decide (it.name = name))).Pairwise
          (fun a b => a.date ≠ b.date) := by
  intro files
  induction files with
  | nil => intro name _; simp
  | cons f fs ih =>
      intro name hnd
      simp only [List.map_cons, List.nodup_cons] at hnd
      simp only [List.flatMap_cons, List.filter_append]
      rw [List.pairwise_append]
      refine ⟨pairwise_of_length_le_one _ _ (by
          calc ((fileBlock cy f).filter (fun it => decide (it.name = name))).length
              ≤ 1 := fileBlock_filter_len cy f name),
        ih name hnd.2, ?_⟩
      intro a ha b hb
      have ha2 : a ∈ fileBlock cy f := List.mem_of_mem_filter ha
      have hb2 : b ∈ fs.flatMap (fileBlock cy) := List.mem_of_mem_filter hb
      have hda : a.date = extractDateFromFileName cy f.1 := (fileBlock_date cy f a ha2).1
      have hdb : b.date ∈ fs.map (fun f2 => extractDateFromFileName cy f2.1) :=
        group_dates_mem cy fs b hb2
      intro hcon
      rw [hda] at hcon
      exact hnd.1 (hcon ▸ hdb)

/-- C4 amended: when every file of the batch has an inferred date and all
inferred dates are pairwise distinct, the merge-path aggregation is
order-independent: permuting the files yields byte-identical combined
content for every name. -/
theorem claim_C4_order_independence (cy : Nat)
    (files1 files2 : List MergeFile) (name : Str)
    (hperm : files1.Perm files2)
    (hdates : ∀ f ∈ files1, (extractDateFromFileName cy f.1).isSome = true)
    (hnodup : (files1.map (fun f => extractDateFromFileName cy f.1)).Nodup) :
    mergedCombinedFor cy files1 name = mergedCombinedFor cy files2 name := by
  rw [mergedCombinedFor_char, mergedCombinedFor_char,
    collectPersonData_eq, collectPersonData_eq]
  congr 1
  have hpermG : ((files1.flatMap (fileBlock cy)).filter
      (fun it => decide (it.name = name))).Perm
      ((files2.flatMap (fileBlock cy)).filter (fun it => decide (it.name = name))) :=
    (hperm.flatMap_right (fileBlock cy)).filter _
  have hdatesome : ∀ it ∈ (files1.flatMap (fileBlock cy)).filter
      (fun it => decide (it.name = name)), it.date.isSome = true := by
    intro it hit
    have := group_dates_mem cy files1 it (List.mem_of_mem_filter hit)
    obtain ⟨f, hf, heq⟩ := List.mem_map.mp this
    rw [← heq]
    exact hdates f hf
  have hpairdates := group_dates_pairwise cy files1 name hnodup
  have hdistinct : ∀ a ∈ (files1.flatMap (fileBlock cy)).filter
        (fun it => decide (it.name = name)),
      ∀ b ∈ (files1.flatMap (fileBlock cy)).filter
        (fun it => decide (it.name = name)), a ≠ b → a.date ≠ b.date := by
    intro a ha b hb hne
    have hsym : Symmetric (fun a b : PersonData => a.date ≠ b.date) := by
      intro x y hxy hc
      exact hxy hc.symm
    exact hpairdates.forall hsym ha hb hne
  set G1 := (files1.flatMap (fileBlock cy)).filter
    (fun it => decide (it.name = name)) with hG1
  refine sortCmp_eq_of_perm pdCmp (fun it => it ∈ G1) ?_ ?_ ?_ _ _ hpermG
    (fun x hx => hx)
  · intro a b ha hb hlt
    obtain ⟨da, hda⟩ := Option.isSome_iff_exists.mp (hdatesome a ha)
    obtain ⟨db, hdb⟩ := Option.isSome_iff_exists.mp (hdatesome b hb)
    rw [pdCmp, hda, hdb] at hlt ⊢
    simp only at hlt ⊢
    rw [(strCmp_lt_gt da db).mp hlt]
    exact fun hcon => Ordering.noConfusion hcon
  · intro a b c ha hb hc hab hcb
    obtain ⟨da, hda⟩ := Option.isSome_iff_exists.mp (hdatesome a ha)
    obtain ⟨db, hdb⟩ := Option.isSome_iff_exists.mp (hdatesome b hb)
    obtain ⟨dc, hdc⟩ := Option.isSome_iff_exists.mp (hdatesome c hc)
    rw [pdCmp, hda, hdb] at hab
    rw [pdCmp, hdc, hdb] at hcb
    rw [pdCmp, hdc, hda]
    simp only at hab hcb ⊢
    intro hca
    exact hcb (strCmp_lt_trans dc da db hca hab)
  · intro a b ha hb hab hba
    obtain ⟨da, hda⟩ := Option.isSome_iff_exists.mp (hdatesome a ha)
    obtain ⟨db, hdb⟩ := Option.isSome_iff_exists.mp (hdatesome b hb)
    rw [pdCmp, hda, hdb] at hab
    rw [pdCmp, hdb, hda] at hba
    simp only at hab hba
    by_contra hne
    have hdne : a.date ≠ b.date := hdistinct a ha b hb hne
    have hdne2 : da ≠ db := by
      intro hc
      exact hdne (by rw [hda, hdb, hc])
    have h1 : strCmp da db ≠ Ordering.eq := fun hc => hdne2 ((strCmp_eq_iff da db).mp hc)
    have h2 : strCmp da db ≠ Ordering.gt := fun hc => hba ((strCmp_lt_gt db da).mpr hc)
    cases hcmp : strCmp da db with
    | lt => exact hab hcmp
    | eq => exact h1 hcmp
    | gt => exact h2 hcmp

theorem claim_C4_witness :
    mergedCombinedFor 2024
      [("2024-1-15a.xlsx".toList,
        [⟨"A様".toList, [["good appetite, slept well".toList]]⟩]),
       ("2024-2-20b.xlsx".toList,
        [⟨"A様".toList, [["mild cough, otherwise stable".toList]]⟩])]
      "A様".toList
    = mergedCombinedFor 2024
      [("2024-2-20b.xlsx".toList,
        [⟨"A様".toList, [["mild cough, otherwise stable".toList]]⟩]),
       ("2024-1-15a.xlsx".toList,
        [⟨"A様".toList, [["good appetite, slept well".toList]]⟩])]
      "A様".toList :=
  claim_C4_order_independence 2024 _ _ "A様".toList
    (List.Perm.swap _ _ [])
    (by decide) (by decide)

theorem gpush2_fst_mem :
    ∀ (m : List (Str × List (Str × Str))) (n : Str) (pr : Str × Str)
      (e : Str × List (Str × Str)),
      e ∈ gpush2 m n pr → e.1 = n ∨ e.1 ∈ m.map Prod.fst := by
  intro m
  induction m with
  | nil =>
      intro n pr e he
      have : e = (n, [pr]) := by simpa [gpush2] using he
      exact Or.inl (by rw [this])
  | cons g rest ih =>
      intro n pr e he
      rcases g with ⟨n0, items⟩
      simp only [gpush2] at he
      by_cases h : n0 = n
      · rw [if_pos h] at he
        rcases List.mem_cons.mp he with h2 | h2
        · exact Or.inl (by rw [h2]; exact h)
        · exact Or.inr (by simp only [List.map_cons]; exact
            List.mem_cons_of_mem _ (List.mem_map_of_mem Prod.fst h2))
      · rw [if_neg h] at he
        rcases List.mem_cons.mp he with h2 | h2
        · exact Or.inr (by rw [h2]; simp)
        · rcases ih n pr e h2 with h3 | h3
          · exact Or.inl h3
          · exact Or.inr (by simp only [List.map_cons]; exact List.mem_cons_of_mem _ h3)

theorem combinedSectionsOf_names (cy : Nat) (files : List MergeFile) :
    ∀ e ∈ combinedSectionsOf cy files,
      e.1 ≠ [] ∧ endsWithHonorific6 e.1 = true := by
  have hfold : ∀ (l : List MergeFile) (acc : List (Str × List (Str × Str))),
      (∀ g ∈ acc, g.1 ≠ [] ∧ endsWithHonorific6 g.1 = true) →
      ∀ g ∈ l.foldl (fun acc f =>
          match extractFromExcel f.2 with
          | Except.error _ => acc
          | Except.ok sections =>
              sections.foldl (fun a p => gpush2 a p.1 (p.2, f.1)) acc) acc,
        g.1 ≠ [] ∧ endsWithHonorific6 g.1 = true := by
    intro l
    induction l with
    | nil => intro acc hacc g hg; exact hacc g hg
    | cons f fs ih =>
        intro acc hacc g hg
        simp only [List.foldl_cons] at hg
        refine ih _ ?_ g hg
        cases hx : extractFromExcel f.2 with
        | error e2 => simpa [hx] using hacc
        | ok sections =>
            simp only [hx]
            have hnames := extractFromExcel_names f.2 sections hx
            have hinner : ∀ (ps : List (Str × Str)) (a : List (Str × List (Str × Str))),
                (∀ p ∈ ps, p.1 ≠ [] ∧ endsWithHonorific6 p.1 = true) →
                (∀ g2 ∈ a, g2.1 ≠ [] ∧ endsWithHonorific6 g2.1 = true) →
                ∀ g2 ∈ ps.foldl (fun a p => gpush2 a p.1 (p.2, f.1)) a,
                  g2.1 ≠ [] ∧ endsWithHonorific6 g2.1 = true := by
              intro ps
              induction ps with
              | nil => intro a _ ha g2 hg2; exact ha g2 hg2
              | cons p ps ihp =>
                  intro a hps ha g2 hg2
                  simp only [List.foldl_cons] at hg2
                  refine ihp _ (fun q hq => hps q (List.mem_cons_of_mem p hq)) ?_ g2 hg2
                  intro g3 hg3
                  rcases gpush2_fst_mem a p.1 (p.2, f.1) g3 hg3 with h | h
                  · rw [h]; exact hps p (List.mem_cons_self p ps)
                  · obtain ⟨g4, hg4, heq⟩ := List.mem_map.mp h
                    rw [← heq]
                    exact ha g4 hg4
            exact hinner sections acc hnames hacc
  intro e he
  simp only [combinedSectionsOf] at he
  obtain ⟨g, hg, heq⟩ := List.mem_map.mp he
  have := hfold files [] (fun g2 hg2 => absurd hg2 (List.not_mem_nil g2)) g hg
  rw [← heq]
  exact this

/-- C10: every SectionMap entry produced by the Segmentation Engine or the
spreadsheet Extractor has a non-empty canonical name ending in an honorific
suffix (さん, 様, 氏, 殿, 君 or ちゃん); unnamed content gets the reserved
未分類 fallback name rather than being dropped, and the invariant is
preserved by the cross-sheet merge and by the cross-file aggregation. -/
theorem claim_C10_canonical_name_invariant :
    (∀ text : Str, ∀ e ∈ splitByPerson text,
      e.1 ≠ [] ∧ endsWithHonorific6 e.1 = true)
    ∧ (∀ (wss : List Worksheet) (sections : List (Str × Str)),
        extractFromExcel wss = Except.ok sections →
        ∀ e ∈ sections, e.1 ≠ [] ∧ endsWithHonorific6 e.1 = true)
    ∧ (∀ (cy : Nat) (files : List MergeFile),
        ∀ e ∈ combinedSectionsOf cy files,
          e.1 ≠ [] ∧ endsWithHonorific6 e.1 = true) := by
  refine ⟨?_, ?_, ?_⟩
  · intro text e he
    have := splitByPerson_honorific text e he
    exact ⟨this.1, ends3_to_ends6 _ this.2⟩
  · exact extractFromExcel_names
  · exact combinedSectionsOf_names

theorem claim_C10_witness :
    ("未分類さん".toList ≠ [] ∧ endsWithHonorific6 "未分類さん".toList = true) :=
  claim_C10_canonical_name_invariant.1 [] ("未分類さん".toList, []) (by decide)

theorem claim_C7_witness :
    containsSub (stripHonorificOnce "田中さん".toList)
      (maskContent "田中さん".toList "田中は良好です".toList) = false :=
  claim_C7_mask_no_occurrence "田中さん".toList "田中は良好です".toList
    (by decide) (by decide) (by decide)

theorem sanitizeSheetName_length (s : Str) :
    (sanitizeSheetName s).length ≤ 31 := by
  simp only [sanitizeSheetName, List.length_take]
  omega

theorem sanitizeSheetName_forbidden (s : Str) :
    ∀ c ∈ sanitizeSheetName s, isForbiddenChar c = false := by
  intro c hc
  have h1 : c ∈ stripForbidden s := List.take_subset 31 _ hc
  simp only [stripForbidden, List.mem_filter] at h1
  simpa using h1.2

/-- C8 (counterexample): the seen map of excel-generator.ts is keyed on the
raw base name while the emitted label is the sanitized base, so two
distinct bases that differ only by a forbidden character collide: 田中さん
and 田中:さん both receive the label 田中さん, violating uniqueness. -/
theorem claim_C8_counterexample :
    "田中さん".toList ≠ "田中:さん".toList
    ∧ assignLabels ["田中さん".toList, "田中:さん".toList] [] =
        ["田中さん".toList, "田中さん".toList]
    ∧ ¬ (assignLabels ["田中さん".toList, "田中:さん".toList] []).Nodup := by
  decide

/-- C8: a base name occurring three times receives the labels base, base①,
base② in order, under both the excel-generator and the summarize-and-merge
variants; every label of the excel-generator variant is at most 31
characters and free of forbidden characters; and beyond the circled-digit
range the suffix falls back to a parenthesized integer, as for the 22nd
occurrence of 田中さん. -/
theorem claim_C8_sheet_labels :
    assignLabels ["田中さん".toList, "田中さん".toList, "田中さん".toList] [] =
        ["田中さん".toList, "田中さん①".toList, "田中さん②".toList]
    ∧ assignLabelsMerge
          ["田中さん".toList, "田中さん".toList, "田中さん".toList] [] =
        ["田中さん".toList, "田中さん①".toList, "田中さん②".toList]
    ∧ (∀ (base : Str) (seen : List (Str × Nat)),
        (assignUniqueSheetName base seen).1.length ≤ 31
        ∧ ∀ c ∈ (assignUniqueSheetName base seen).1, isForbiddenChar c = false)
    ∧ (assignUniqueSheetName "田中さん".toList [("田中さん".toList, 21)]).1 =
        "田中さん(21)".toList := by
  refine ⟨by decide, by decide, ?_, by decide⟩
  intro base seen
  constructor
  · simp only [assignUniqueSheetName]
    split
    · exact sanitizeSheetName_length _
    · exact sanitizeSheetName_length _
  · simp only [assignUniqueSheetName]
    split
    · exact sanitizeSheetName_forbidden _
    · exact sanitizeSheetName_forbidden _

theorem claim_C8_witness : isForbiddenChar '田' = false :=
  (claim_C8_sheet_labels.2.2.1 "田中さん".toList []).2 '田' (by decide)

set_option maxHeartbeats 4000000 in
/-- C3 (counterexample): extractTextFromPDF itself performs no replacement
character check: a document whose only text object holds 110 characters, 20
of them U+FFFD, extracts successfully even though more than 10% of the
result is garbled. -/
theorem claim_C3_counterexample :
    extractTextFromPDF
        ("BT (".toList ++
          (List.replicate 90 'a' ++ List.replicate 20 '�') ++ ") Tj ET".toList) =
      Except.ok (List.replicate 90 'a' ++ List.replicate 20 '�')
    ∧ (List.replicate 90 'a' ++ List.replicate 20 '�' : Str).length <
        10 * countFFFD (List.replicate 90 'a' ++ List.replicate 20 '�') := by
  constructor
  · rfl
  · decide

set_option maxHeartbeats 4000000 in
/-- C3: corrected form.  extractTextFromPDF guarantees only the minimum
length of 100 characters on success; the 10% replacement-character bound is
enforced by the route-level gate, so the composed route pipeline returns
text that is both long enough after trimming and at most 10% garbled. -/
theorem claim_C3_extraction_quality :
    (∀ s t, extractTextFromPDF s = Except.ok t → 100 ≤ t.length)
    ∧ (∀ s t, pdfPipelineText s = Except.ok t →
        100 ≤ (trimStr t).length ∧ 10 * countFFFD t ≤ t.length) := by
  have hguard : ∀ (m x t : Str),
      (if x = [] ∨ x.length < 100 then Except.error m else Except.ok x) =
        Except.ok t → 100 ≤ t.length := by
    intro m x t h
    split_ifs at h with h1
    all_goals first
    | exact Except.noConfusion h
    | (push_neg at h1
       rw [← Except.ok.inj h]
       exact h1.2)
  have hroute : ∀ t u : Str, pdfRouteCheck t = Except.ok u →
      100 ≤ (trimStr u).length ∧ 10 * countFFFD u ≤ u.length := by
    intro t u h
    simp only [pdfRouteCheck] at h
    split_ifs at h with h1 h2
    all_goals first
    | exact Except.noConfusion h
    | (push_neg at h1
       rw [← Except.ok.inj h]
       exact ⟨h1.2, Nat.le_of_not_lt h2⟩)
  refine ⟨fun s t h => hguard PDF_FAIL_MSG _ t h, ?_⟩
  intro s t h
  cases hx : extractTextFromPDF s with
  | error e =>
      unfold pdfPipelineText at h
      rw [hx] at h
      exact Except.noConfusion h
  | ok t0 =>
      unfold pdfPipelineText at h
      rw [hx] at h
      exact hroute t0 t h

set_option maxHeartbeats 4000000 in
theorem claim_C3_witness :
    100 ≤ (List.replicate 120 'a' : Str).length :=
  claim_C3_extraction_quality.1
    ("BT (".toList ++ List.replicate 120 'a' ++ ") Tj ET".toList)
    (List.replicate 120 'a') (by rfl)

end Hospo


